import Mathlib

/-!
# Verification of the force-directed schema-graph layout engine

Shallow embedding of `useForceLayout` and `edgePorts` from
`frontend/src/views/DatabaseView.tsx`.  JavaScript floating-point numbers are
idealized as real numbers; a 2-D point `{x, y}` is embedded as a complex
number whose real part is `x` and whose imaginary part is `y`.  The mutable
JS record `pos : Record<string, {x, y, vx, vy}>` is embedded as a pair of
total functions `String → ℂ` (position and velocity) together with the list
of its keys in insertion order; JS object-key semantics (first-insertion
order, last-write-wins values) are modelled explicitly.
-/

namespace DbView

/-- `LineageNode` from DatabaseView.tsx. -/
structure LineageNode where
  id : String
  label : String
  row_count : Int
  service : String
deriving DecidableEq, Repr

/-- `LineageEdge` from DatabaseView.tsx (including the `inferred` flag that the
rendering code reads via `(e as any).inferred`). -/
structure LineageEdge where
  source : String
  target : String
  source_column : String
  target_column : String
  service : String
  inferred : Bool
deriving DecidableEq, Repr

/-- `const CARD_W = 160` -/
def CARD_W : ℝ := 160
/-- `const CARD_H = 60` -/
def CARD_H : ℝ := 60
/-- `const REPEL = 18000` -/
def REPEL : ℝ := 18000
/-- `const ATTRACT = 0.04` -/
def ATTRACT : ℝ := 0.04
/-- `const DAMPING = 0.82` -/
def DAMPING : ℝ := 0.82
/-- `const ITERS = 200` (the iteration-count constant of the simulation). -/
def ITERS : ℕ := 200
/-- `const GAP = 220` -/
def GAP : ℝ := 220
/-- `const PAD = 40` -/
def PAD : ℝ := 40

/-- The composite key `` `${n.service}:${n.id}` `` used for the position map. -/
def nodeKey (n : LineageNode) : String := n.service ++ ":" ++ n.id

/-- Source key `` `${e.service}:${e.source}` `` of an edge. -/
def edgeSrcKey (e : LineageEdge) : String := e.service ++ ":" ++ e.source

/-- Target key `` `${e.service}:${e.target}` `` of an edge. -/
def edgeTgtKey (e : LineageEdge) : String := e.service ++ ":" ++ e.target

/-- Keys of a JS object built by repeated assignment: first-insertion order,
duplicates dropped. -/
def insKeys (l : List String) : List String :=
  l.foldl (fun acc k => if k ∈ acc then acc else acc ++ [k]) []

/-- JavaScript `x || y` for the nonnegative numbers that occur here:
`0` is falsy, every other value is returned unchanged. -/
noncomputable def jsOr (x y : ℝ) : ℝ := if x = 0 then y else x

/-- `Math.min(...l)` for a nonempty list (the empty case never occurs:
the layout returns early on an empty node list). -/
noncomputable def jsMin : List ℝ → ℝ
  | [] => 0
  | x :: xs => xs.foldl min x

/-- Seed position of the node at index `i` in a list of `n` nodes:
`x = 400 + r*cos(angle)`, `y = 300 + r*sin(angle)` with
`angle = 2π i / n`, `r = GAP * max(1, COLS/2)`, `COLS = ceil(sqrt n)`. -/
noncomputable def seedVal (n i : ℕ) : ℂ :=
  let COLS : ℕ := ⌈Real.sqrt n⌉₊
  let angle : ℝ := 2 * Real.pi * i / n
  let r : ℝ := GAP * max 1 ((COLS : ℝ) / 2)
  ⟨400 + r * Real.cos angle, 300 + r * Real.sin angle⟩

/-- `nodes.forEach((n, i) => { pos[key] = {x: …, y: …, vx: 0, vy: 0}; })` —
the position part.  Later assignments to the same key overwrite earlier ones,
exactly as in JS. -/
noncomputable def seedPos (nodes : List LineageNode) : String → ℂ :=
  nodes.enum.foldl
    (fun f p => Function.update f (nodeKey p.2) (seedVal nodes.length p.1))
    (fun _ => 0)

/-- The repulsion force vector `(fx, fy)` computed for an ordered pair
`(pa, pb)` in the inner loop: `dx = pb.x - pa.x`, `dy = pb.y - pa.y`,
`dist2 = max(dx*dx + dy*dy, 1)`, `dist = sqrt(dist2)`,
`force = REPEL / dist2`, `fx = (dx/dist)*force`, `fy = (dy/dist)*force`. -/
noncomputable def repelF (pa pb : ℂ) : ℂ :=
  let dx : ℝ := (pb - pa).re
  let dy : ℝ := (pb - pa).im
  let dist2 : ℝ := max (dx * dx + dy * dy) 1
  let dist : ℝ := Real.sqrt dist2
  let force : ℝ := REPEL / dist2
  ⟨dx / dist * force, dy / dist * force⟩

/-- All index-ordered pairs `(l[a], l[b])` with `a < b`, in the traversal
order of the double loop `for a … for b = a+1 …`. -/
def pairs {α : Type} : List α → List (α × α)
  | [] => []
  | x :: xs => (xs.map fun y => (x, y)) ++ pairs xs

/-- One step of the repulsion double loop on the pair `ab`:
`pa.v -= f; pb.v += f` (sequential mutation of the velocity map). -/
noncomputable def repelStep (p : String → ℂ) (w : String → ℂ)
    (ab : String × String) : String → ℂ :=
  let f := repelF (p ab.1) (p ab.2)
  let w1 := Function.update w ab.1 (w ab.1 - f)
  Function.update w1 ab.2 (w1 ab.2 + f)

/-- The pairwise-repulsion pass: the double loop over all pairs `a < b`. -/
noncomputable def repelPass (keys : List String) (p v : String → ℂ) :
    String → ℂ :=
  (pairs keys).foldl (repelStep p) v

/-- The attraction force vector for an edge with endpoint positions
`(ps, pt)`: `dist = sqrt(dx*dx+dy*dy) || 1`, `ideal = GAP*1.6`,
`force = (dist - ideal) * ATTRACT`, `fx = (dx/dist)*force`, …. -/
noncomputable def attractF (ps pt : ℂ) : ℂ :=
  let dx : ℝ := (pt - ps).re
  let dy : ℝ := (pt - ps).im
  let dist : ℝ := jsOr (Real.sqrt (dx * dx + dy * dy)) 1
  let ideal : ℝ := GAP * 1.6
  let force : ℝ := (dist - ideal) * ATTRACT
  ⟨dx / dist * force, dy / dist * force⟩

/-- One step of the edge-attraction loop: `if (!ps || !pt) return; …
ps.v += f; pt.v -= f`.  Presence of `pos[sk]` is membership of the key in the
key list of the position object. -/
noncomputable def attractStep (keys : List String) (p : String → ℂ)
    (w : String → ℂ) (e : LineageEdge) : String → ℂ :=
  if edgeSrcKey e ∈ keys ∧ edgeTgtKey e ∈ keys then
    let f := attractF (p (edgeSrcKey e)) (p (edgeTgtKey e))
    let w1 := Function.update w (edgeSrcKey e) (w (edgeSrcKey e) + f)
    Function.update w1 (edgeTgtKey e) (w1 (edgeTgtKey e) - f)
  else w

/-- The edge-attraction pass: `edges.forEach(e => { … })`. -/
noncomputable def attractPass (keys : List String) (edges : List LineageEdge)
    (p v : String → ℂ) : String → ℂ :=
  edges.foldl (attractStep keys p) v

/-- The integration pass: `keys.forEach(k => { p.x += p.vx; p.y += p.vy;
p.vx *= DAMPING; p.vy *= DAMPING; })`. -/
noncomputable def integrate (keys : List String) (p v : String → ℂ) :
    (String → ℂ) × (String → ℂ) :=
  keys.foldl
    (fun pv k =>
      (Function.update pv.1 k (pv.1 k + pv.2 k),
       Function.update pv.2 k (DAMPING • pv.2 k)))
    (p, v)

/-- One iteration of the simulation loop: repulsion, then attraction, then
integration with damping. -/
noncomputable def stepSim (keys : List String) (edges : List LineageEdge)
    (pv : (String → ℂ) × (String → ℂ)) : (String → ℂ) × (String → ℂ) :=
  integrate keys (pv.1) (attractPass keys edges (pv.1) (repelPass keys pv.1 pv.2))

/-- `useForceLayout(nodes, edges)`: the position map finally stored by
`setPositions`, as an association list in key-insertion order.  Empty node
list ⇒ empty map; otherwise: seed, run `ITERS` simulation steps, then shift
so that the minimal x and y coordinates both equal `PAD`. -/
noncomputable def useForceLayout (nodes : List LineageNode)
    (edges : List LineageEdge) : List (String × ℂ) :=
  if nodes = [] then []
  else
    let keys := insKeys (nodes.map nodeKey)
    let pv := (stepSim keys edges)^[ITERS] (seedPos nodes, fun _ => 0)
    let minX := jsMin (keys.map fun k => (pv.1 k).re)
    let minY := jsMin (keys.map fun k => (pv.1 k).im)
    keys.map fun k => (k, ⟨(pv.1 k).re - minX + PAD, (pv.1 k).im - minY + PAD⟩)

/-- The four port coordinates returned by `edgePorts`. -/
structure Ports where
  x1 : ℝ
  y1 : ℝ
  x2 : ℝ
  y2 : ℝ

/-- `edgePorts(sp, tp)` from DatabaseView.tsx: orthogonal-connector port
selection by dominant displacement axis between the two card centers. -/
noncomputable def edgePorts (sp tp : ℂ) : Ports :=
  let sx := sp.re + CARD_W / 2
  let sy := sp.im + CARD_H / 2
  let tx := tp.re + CARD_W / 2
  let ty := tp.im + CARD_H / 2
  let dx := tx - sx
  let dy := ty - sy
  if |dx| > |dy| then
    if dx > 0 then ⟨sp.re + CARD_W, sp.im + CARD_H / 2, tp.re, tp.im + CARD_H / 2⟩
    else ⟨sp.re, sp.im + CARD_H / 2, tp.re + CARD_W, tp.im + CARD_H / 2⟩
  else
    if dy > 0 then ⟨sp.re + CARD_W / 2, sp.im + CARD_H, tp.re + CARD_W / 2, tp.im⟩
    else ⟨sp.re + CARD_W / 2, sp.im, tp.re + CARD_W / 2, tp.im + CARD_H⟩

/-! ## Spec-side definitions for the port-selection claim (C8)

These follow the specification's words ("exits the source's right-edge
midpoint", …) and are compared with `edgePorts` in the C8 theorem. -/

/-- Midpoint of the right edge of the card whose top-left corner is `b`. -/
noncomputable def rightMid (b : ℂ) : ℝ × ℝ := (b.re + CARD_W, b.im + CARD_H / 2)

/-- Midpoint of the left edge of a card. -/
noncomputable def leftMid (b : ℂ) : ℝ × ℝ := (b.re, b.im + CARD_H / 2)

/-- Midpoint of the bottom edge of a card. -/
noncomputable def bottomMid (b : ℂ) : ℝ × ℝ := (b.re + CARD_W / 2, b.im + CARD_H)

/-- Midpoint of the top edge of a card. -/
noncomputable def topMid (b : ℂ) : ℝ × ℝ := (b.re + CARD_W / 2, b.im)

/-- Packaging an exit point and an entry point as a `Ports` value. -/
def mkPorts (s t : ℝ × ℝ) : Ports := ⟨s.1, s.2, t.1, t.2⟩

/-- x-coordinate of a card's center. -/
noncomputable def centerX (b : ℂ) : ℝ := b.re + CARD_W / 2

/-- y-coordinate of a card's center. -/
noncomputable def centerY (b : ℂ) : ℝ := b.im + CARD_H / 2

/-- The simulated (pre-normalization) final position function after `ITERS`
iterations. -/
noncomputable def simFinal (nodes : List LineageNode) (edges : List LineageEdge) :
    String → ℂ :=
  ((stepSim (insKeys (nodes.map nodeKey)) edges)^[ITERS] (seedPos nodes, fun _ => 0)).1

/-- The node fields the simulation can read: `id` and `service`. -/
def projN (n : LineageNode) : String × String := (n.id, n.service)

/-- The edge fields the simulation can read: `service`, `source`, `target`. -/
def projE (e : LineageEdge) : String × String × String :=
  (e.service, e.source, e.target)

/-- Per-pair velocity contribution of the repulsion double loop, as received
by key `k`. -/
noncomputable def pairContrib (p : String → ℂ) (k : String)
    (ab : String × String) : ℂ :=
  if k = ab.1 then -repelF (p ab.1) (p ab.2)
  else if k = ab.2 then repelF (p ab.1) (p ab.2) else 0

/-- Per-edge velocity contribution of the attraction pass, as received by
key `k`: zero for edges with a missing endpoint, the spring force `+f` at
the source key, `-f` at the target key and zero elsewhere. -/
noncomputable def edgeContrib (keys : List String) (p : String → ℂ)
    (k : String) (e : LineageEdge) : ℂ :=
  if edgeSrcKey e ∈ keys ∧ edgeTgtKey e ∈ keys then
    if k = edgeSrcKey e then attractF (p (edgeSrcKey e)) (p (edgeTgtKey e))
    else if k = edgeTgtKey e then
      -attractF (p (edgeSrcKey e)) (p (edgeTgtKey e))
    else 0
  else 0

/-- A concrete position map used in witnesses: `0` everywhere except
`⟨4, 3⟩` at key `"s:b"`. -/
noncomputable def wP : String → ℂ := fun k => if k = "s:b" then ⟨4, 3⟩ else 0

/-- A concrete edge used in witnesses: `service "s"`, `source "a"`,
`target "b"`. -/
def wE : LineageEdge := ⟨"a", "b", "", "", "s", false⟩

/-- The seeding center `(400, 300)`. -/
noncomputable def center : ℂ := ⟨400, 300⟩

/-- The seeding radius `r = GAP * max(1, ceil(sqrt n) / 2)`. -/
noncomputable def Rrad (n : ℕ) : ℝ :=
  GAP * max 1 (((⌈Real.sqrt n⌉₊ : ℕ) : ℝ) / 2)

/-- The unit vector at seed angle `2π i / n`. -/
noncomputable def eps (n i : ℕ) : ℂ :=
  Complex.exp (((2 * Real.pi * i / n : ℝ) : ℂ) * Complex.I)

/-- `normSq (1 - eps n d)`: squared chord length between adjacent powers. -/
noncomputable def chord (n d : ℕ) : ℝ := Complex.normSq (1 - eps n d)

/-- The scalar repulsion kernel as a function of the squared distance:
`REPEL / max(t, 1) / sqrt(max(t, 1))`. -/
noncomputable def Mfac (t : ℝ) : ℝ :=
  REPEL / max t 1 / Real.sqrt (max t 1)

/-- The (positive, real) net radial repulsion coefficient of the symmetric
configuration of radius `ρ`. -/
noncomputable def Sval (n : ℕ) (ρ : ℝ) : ℝ :=
  ∑ d in Finset.Ico 1 n, Mfac (ρ ^ 2 * chord n d) *
    (1 - Real.cos (2 * Real.pi * d / n))

/-- The radius/velocity scalar recurrence followed by the symmetric
configuration: `w1 = w + ρ * Sval; ρ += w1; w = DAMPING * w1`. -/
noncomputable def rwSeq (n : ℕ) : ℕ → ℝ × ℝ
  | 0 => (Rrad n, 0)
  | k + 1 =>
    let s := rwSeq n k
    let w1 := s.2 + s.1 * Sval n s.1
    (s.1 + w1, DAMPING * w1)

/-- Position of node `j` in the symmetric configuration of radius `ρ`. -/
noncomputable def symPos (n : ℕ) (ρ : ℝ) (j : ℕ) : ℂ :=
  center + (ρ : ℂ) * eps n j

/-- The key of the node at index `m` (with a default for out-of-range). -/
def kfn (nodes : List LineageNode) (m : ℕ) : String :=
  (nodes.map nodeKey).getD m ""

/-- The value stored in the output map for key `k`. -/
noncomputable def layoutVal (nodes : List LineageNode) (edges : List LineageEdge)
    (k : String) : ℂ :=
  ⟨(simFinal nodes edges k).re -
     jsMin ((insKeys (nodes.map nodeKey)).map fun j =>
       (simFinal nodes edges j).re) + PAD,
   (simFinal nodes edges k).im -
     jsMin ((insKeys (nodes.map nodeKey)).map fun j =>
       (simFinal nodes edges j).im) + PAD⟩

/-! ## Basic lemmas about the embedding -/

theorem insKeys_go_mem (l : List String) (acc : List String) (k : String) :
    k ∈ l.foldl (fun acc k => if k ∈ acc then acc else acc ++ [k]) acc ↔
      k ∈ acc ∨ k ∈ l := by
  induction l generalizing acc with
  | nil => simp
  | cons x xs ih =>
    simp only [List.foldl_cons]
    by_cases hx : x ∈ acc
    · rw [if_pos hx, ih]
      constructor
      · rintro (h | h)
        · exact Or.inl h
        · exact Or.inr (List.mem_cons_of_mem _ h)
      · rintro (h | h)
        · exact Or.inl h
        · rcases List.mem_cons.mp h with rfl | h
          · exact Or.inl hx
          · exact Or.inr h
    · rw [if_neg hx, ih]
      simp only [List.mem_append, List.mem_singleton, List.mem_cons]
      tauto

theorem mem_insKeys (l : List String) (k : String) :
    k ∈ insKeys l ↔ k ∈ l := by
  rw [insKeys, insKeys_go_mem]
  simp

theorem insKeys_ne_nil {l : List String} (h : l ≠ []) : insKeys l ≠ [] := by
  rcases l with _ | ⟨x, xs⟩
  · exact absurd rfl h
  · intro hcon
    have : x ∈ insKeys (x :: xs) := (mem_insKeys _ _).mpr (List.mem_cons_self _ _)
    rw [hcon] at this
    exact List.not_mem_nil _ this

theorem map_fst_graph (l : List String) (f : String → ℂ) :
    (l.map fun k => (k, f k)).map Prod.fst = l := by
  induction l with
  | nil => rfl
  | cons x xs ih => simp [ih]

/-- The keys of the returned position map are exactly `insKeys` of the node
keys (in particular they appear in first-insertion order). -/
theorem useForceLayout_keys (nodes : List LineageNode) (edges : List LineageEdge)
    (h : nodes ≠ []) :
    (useForceLayout nodes edges).map Prod.fst = insKeys (nodes.map nodeKey) := by
  rw [useForceLayout, if_neg h]
  exact map_fst_graph _ _

/-! ## C1 : key set of the output equals the node key set -/

/-- C1.  For every input, the key set of the position map returned by the
force layout equals the set of composite keys of the input nodes: a key has a
position iff it is the key of some input node; and for the empty node list
the returned map is empty. -/
theorem layout_key_set (nodes : List LineageNode) (edges : List LineageEdge) :
    (∀ k : String,
        k ∈ (useForceLayout nodes edges).map Prod.fst ↔
          k ∈ nodes.map nodeKey) ∧
      (nodes = [] → useForceLayout nodes edges = []) := by
  constructor
  · intro k
    by_cases h : nodes = []
    · subst h
      simp [useForceLayout]
    · rw [useForceLayout_keys nodes edges h, mem_insKeys]
  · intro h
    rw [useForceLayout, if_pos h]

/-- Witness for C1 at a concrete input. -/
theorem layout_key_set_witness :
    (∀ k : String,
        k ∈ (useForceLayout [] []).map Prod.fst ↔
          k ∈ ([] : List LineageNode).map nodeKey) ∧
      (([] : List LineageNode) = [] → useForceLayout [] [] = []) :=
  layout_key_set [] []

/-- Unfolded form of `useForceLayout` on a nonempty node list. -/
theorem useForceLayout_eq (nodes : List LineageNode) (edges : List LineageEdge)
    (h : nodes ≠ []) :
    useForceLayout nodes edges =
      (insKeys (nodes.map nodeKey)).map fun k =>
        (k, ⟨(simFinal nodes edges k).re -
               jsMin ((insKeys (nodes.map nodeKey)).map fun j =>
                 (simFinal nodes edges j).re) + PAD,
             (simFinal nodes edges k).im -
               jsMin ((insKeys (nodes.map nodeKey)).map fun j =>
                 (simFinal nodes edges j).im) + PAD⟩) := by
  rw [useForceLayout, if_neg h]
  rfl

/-! ## C6 : dangling edges are ignored -/

theorem attractPass_filter (keys : List String) (edges : List LineageEdge)
    (p : String → ℂ) : ∀ v : String → ℂ,
    attractPass keys edges p v =
      attractPass keys
        (edges.filter fun e =>
          decide (edgeSrcKey e ∈ keys) && decide (edgeTgtKey e ∈ keys)) p v := by
  induction edges with
  | nil => intro v; rfl
  | cons e es ih =>
    intro v
    by_cases hc : edgeSrcKey e ∈ keys ∧ edgeTgtKey e ∈ keys
    · have hfil : (e :: es).filter (fun e =>
          decide (edgeSrcKey e ∈ keys) && decide (edgeTgtKey e ∈ keys)) =
          e :: es.filter (fun e =>
            decide (edgeSrcKey e ∈ keys) && decide (edgeTgtKey e ∈ keys)) := by
        simp [List.filter_cons, hc.1, hc.2]
      rw [hfil]
      show attractPass keys es p _ = attractPass keys _ p _
      exact ih _
    · have hfil : (e :: es).filter (fun e =>
          decide (edgeSrcKey e ∈ keys) && decide (edgeTgtKey e ∈ keys)) =
          es.filter (fun e =>
            decide (edgeSrcKey e ∈ keys) && decide (edgeTgtKey e ∈ keys)) := by
        rcases not_and_or.mp hc with h1 | h1 <;> simp [List.filter_cons, h1]
      rw [hfil]
      have hskip : attractStep keys p v e = v := by
        rw [attractStep, if_neg hc]
      have hstep : attractPass keys (e :: es) p v = attractPass keys es p v := by
        show attractPass keys es p (attractStep keys p v e) =
          attractPass keys es p v
        rw [hskip]
      rw [hstep]
      exact ih v

/-- C6.  Edges whose source or target key matches no node exert no force and
raise no error: the layout with dangling edges included equals the layout
with exactly those edges removed. -/
theorem layout_ignores_dangling (nodes : List LineageNode)
    (edges : List LineageEdge) :
    useForceLayout nodes edges =
      useForceLayout nodes
        (edges.filter fun e =>
          decide (edgeSrcKey e ∈ insKeys (nodes.map nodeKey)) &&
          decide (edgeTgtKey e ∈ insKeys (nodes.map nodeKey))) := by
  by_cases h : nodes = []
  · rw [useForceLayout, useForceLayout, if_pos h, if_pos h]
  · have hstep : stepSim (insKeys (nodes.map nodeKey)) edges =
        stepSim (insKeys (nodes.map nodeKey))
          (edges.filter fun e =>
            decide (edgeSrcKey e ∈ insKeys (nodes.map nodeKey)) &&
            decide (edgeTgtKey e ∈ insKeys (nodes.map nodeKey))) := by
      funext pv
      rw [stepSim, stepSim, attractPass_filter]
    have hsim : simFinal nodes edges =
        simFinal nodes
          (edges.filter fun e =>
            decide (edgeSrcKey e ∈ insKeys (nodes.map nodeKey)) &&
            decide (edgeTgtKey e ∈ insKeys (nodes.map nodeKey))) := by
      rw [simFinal, simFinal, hstep]
    rw [useForceLayout_eq nodes edges h, useForceLayout_eq nodes _ h, hsim]

/-! ## C5 : normalization is a uniform translation anchoring the minima -/

theorem foldl_min_add (xs : List ℝ) (c : ℝ) : ∀ a : ℝ,
    (xs.map fun x => x + c).foldl min (a + c) = xs.foldl min a + c := by
  induction xs with
  | nil => intro a; rfl
  | cons y ys ih =>
    intro a
    simp only [List.map_cons, List.foldl_cons]
    rw [min_add_add_right]
    exact ih (min a y)

theorem jsMin_map_add (l : List ℝ) (c : ℝ) (h : l ≠ []) :
    jsMin (l.map fun x => x + c) = jsMin l + c := by
  rcases l with _ | ⟨x, xs⟩
  · exact absurd rfl h
  · simp only [List.map_cons, jsMin]
    exact foldl_min_add xs c x

theorem graph_shift (K : List String) (f : String → ℂ) (mx my : ℝ) :
    (K.map fun k => (k, (⟨(f k).re - mx + PAD, (f k).im - my + PAD⟩ : ℂ))) =
      K.map fun k => (k, f k + ⟨PAD - mx, PAD - my⟩) := by
  apply List.map_congr_left
  intro k _
  refine congrArg (Prod.mk k) ?_
  apply Complex.ext
  · show (f k).re - mx + PAD = (f k).re + (PAD - mx)
    ring
  · show (f k).im - my + PAD = (f k).im + (PAD - my)
    ring

theorem graph_shift_re (K : List String) (f : String → ℂ) (mx my : ℝ) :
    ((K.map fun k => (k, f k + (⟨PAD - mx, PAD - my⟩ : ℂ))).map fun q => q.2.re) =
      (K.map fun j => (f j).re).map fun x => x + (PAD - mx) := by
  rw [List.map_map, List.map_map]
  apply List.map_congr_left
  intro k _
  show (f k + (⟨PAD - mx, PAD - my⟩ : ℂ)).re = (f k).re + (PAD - mx)
  rw [Complex.add_re]

theorem graph_shift_im (K : List String) (f : String → ℂ) (mx my : ℝ) :
    ((K.map fun k => (k, f k + (⟨PAD - mx, PAD - my⟩ : ℂ))).map fun q => q.2.im) =
      (K.map fun j => (f j).im).map fun x => x + (PAD - my) := by
  rw [List.map_map, List.map_map]
  apply List.map_congr_left
  intro k _
  show (f k + (⟨PAD - mx, PAD - my⟩ : ℂ)).im = (f k).im + (PAD - my)
  rw [Complex.add_im]

/-- C5.  For every non-empty node list, the returned position map is the
simulated final-position assignment uniformly translated by a single vector
`t`, so that the minimum of the output x coordinates and the minimum of the
output y coordinates both equal the padding constant `PAD = 40`; in
particular, pairwise displacements between positions are unchanged by the
normalization. -/
theorem layout_normalized (nodes : List LineageNode) (edges : List LineageEdge)
    (h : nodes ≠ []) :
    ∃ t : ℂ,
      (∀ k ∈ insKeys (nodes.map nodeKey),
        (k, simFinal nodes edges k + t) ∈ useForceLayout nodes edges) ∧
      (∀ k₁ p₁ k₂ p₂, (k₁, p₁) ∈ useForceLayout nodes edges →
        (k₂, p₂) ∈ useForceLayout nodes edges →
        p₁ - p₂ = simFinal nodes edges k₁ - simFinal nodes edges k₂) ∧
      jsMin ((useForceLayout nodes edges).map fun q => q.2.re) = PAD ∧
      jsMin ((useForceLayout nodes edges).map fun q => q.2.im) = PAD := by
  have hkeys : insKeys (nodes.map nodeKey) ≠ [] :=
    insKeys_ne_nil (by
      intro hcon
      exact h (List.map_eq_nil_iff.mp hcon))
  set K := insKeys (nodes.map nodeKey) with hK
  set f := simFinal nodes edges with hf
  set minX := jsMin (K.map fun j => (f j).re) with hminX
  set minY := jsMin (K.map fun j => (f j).im) with hminY
  refine ⟨⟨PAD - minX, PAD - minY⟩, ?_⟩
  have hout : useForceLayout nodes edges =
      K.map fun k => (k, f k + ⟨PAD - minX, PAD - minY⟩) := by
    rw [useForceLayout_eq nodes edges h]
    exact graph_shift K f minX minY
  refine ⟨?_, ?_, ?_, ?_⟩
  · intro k hk
    rw [hout]
    exact List.mem_map_of_mem _ hk
  · intro k₁ p₁ k₂ p₂ h₁ h₂
    rw [hout] at h₁ h₂
    obtain ⟨a₁, _, ha₁⟩ := List.mem_map.mp h₁
    obtain ⟨a₂, _, ha₂⟩ := List.mem_map.mp h₂
    injection ha₁ with hk₁ hp₁
    injection ha₂ with hk₂ hp₂
    subst hk₁
    subst hp₁
    subst hk₂
    subst hp₂
    ring
  · rw [hout, graph_shift_re K f minX minY,
      jsMin_map_add _ _ (by simpa using hkeys), ← hminX]
    ring
  · rw [hout, graph_shift_im K f minX minY,
      jsMin_map_add _ _ (by simpa using hkeys), ← hminY]
    ring

/-- Witness for C5 at a concrete one-node input. -/
theorem layout_normalized_witness :
    ∃ t : ℂ,
      (∀ k ∈ insKeys ([⟨"t", "t", 0, "s"⟩].map nodeKey),
        (k, simFinal [⟨"t", "t", 0, "s"⟩] [] k + t) ∈
          useForceLayout [⟨"t", "t", 0, "s"⟩] []) ∧
      (∀ k₁ p₁ k₂ p₂, (k₁, p₁) ∈ useForceLayout [⟨"t", "t", 0, "s"⟩] [] →
        (k₂, p₂) ∈ useForceLayout [⟨"t", "t", 0, "s"⟩] [] →
        p₁ - p₂ = simFinal [⟨"t", "t", 0, "s"⟩] [] k₁ -
          simFinal [⟨"t", "t", 0, "s"⟩] [] k₂) ∧
      jsMin ((useForceLayout [⟨"t", "t", 0, "s"⟩] []).map fun q => q.2.re) = PAD ∧
      jsMin ((useForceLayout [⟨"t", "t", 0, "s"⟩] []).map fun q => q.2.im) = PAD :=
  layout_normalized [⟨"t", "t", 0, "s"⟩] [] (List.cons_ne_nil _ _)

/-! ## C10 : the layout depends only on geometric fields -/

theorem nodeKey_congr {x y : LineageNode} (h : projN x = projN y) :
    nodeKey x = nodeKey y := by
  have h1 : x.id = y.id := congrArg Prod.fst h
  have h2 : x.service = y.service := congrArg Prod.snd h
  rw [nodeKey, nodeKey, h1, h2]

theorem mapKey_congr {l₁ l₂ : List LineageNode}
    (h : l₁.map projN = l₂.map projN) : l₁.map nodeKey = l₂.map nodeKey := by
  have e : ∀ l : List LineageNode,
      l.map nodeKey = (l.map projN).map fun q => q.2 ++ ":" ++ q.1 := by
    intro l
    rw [List.map_map]
    rfl
  rw [e, e, h]

theorem seedFold_congr (N : ℕ) (l₁ : List LineageNode) :
    ∀ (l₂ : List LineageNode) (i : ℕ) (f : String → ℂ),
      l₁.map projN = l₂.map projN →
      (List.enumFrom i l₁).foldl
        (fun g q => Function.update g (nodeKey q.2) (seedVal N q.1)) f =
      (List.enumFrom i l₂).foldl
        (fun g q => Function.update g (nodeKey q.2) (seedVal N q.1)) f := by
  induction l₁ with
  | nil =>
    intro l₂ i f h
    rw [List.map_nil] at h
    rw [List.map_eq_nil_iff.mp h.symm]
  | cons x xs ih =>
    intro l₂ i f h
    cases l₂ with
    | nil => simp at h
    | cons y ys =>
      simp only [List.map_cons, List.cons.injEq] at h
      obtain ⟨hxy, hmap⟩ := h
      show (List.enumFrom (i + 1) xs).foldl _
          (Function.update f (nodeKey x) (seedVal N i)) = _
      rw [nodeKey_congr hxy]
      exact ih ys (i + 1) _ hmap

theorem seedPos_congr {nodes₁ nodes₂ : List LineageNode}
    (h : nodes₁.map projN = nodes₂.map projN) :
    seedPos nodes₁ = seedPos nodes₂ := by
  have hlen : nodes₁.length = nodes₂.length := by
    rw [← List.length_map nodes₁ projN, h, List.length_map]
  rw [seedPos, seedPos, hlen]
  exact seedFold_congr nodes₂.length nodes₁ nodes₂ 0 _ h

theorem edgeKeys_congr {e₁ e₂ : LineageEdge} (h : projE e₁ = projE e₂) :
    edgeSrcKey e₁ = edgeSrcKey e₂ ∧ edgeTgtKey e₁ = edgeTgtKey e₂ := by
  have h1 : e₁.service = e₂.service := congrArg (fun q => q.1) h
  have h2 : e₁.source = e₂.source := congrArg (fun q => q.2.1) h
  have h3 : e₁.target = e₂.target := congrArg (fun q => q.2.2) h
  constructor
  · rw [edgeSrcKey, edgeSrcKey, h1, h2]
  · rw [edgeTgtKey, edgeTgtKey, h1, h3]

theorem attractPass_congr (keys : List String) (p : String → ℂ)
    (edges₁ : List LineageEdge) :
    ∀ (edges₂ : List LineageEdge) (v : String → ℂ),
      edges₁.map projE = edges₂.map projE →
      attractPass keys edges₁ p v = attractPass keys edges₂ p v := by
  induction edges₁ with
  | nil =>
    intro edges₂ v h
    rw [List.map_nil] at h
    rw [List.map_eq_nil_iff.mp h.symm]
  | cons e es ih =>
    intro edges₂ v h
    cases edges₂ with
    | nil => simp at h
    | cons d ds =>
      simp only [List.map_cons, List.cons.injEq] at h
      obtain ⟨hed, hmap⟩ := h
      obtain ⟨hs, ht⟩ := edgeKeys_congr hed
      have hstep : attractStep keys p v e = attractStep keys p v d := by
        rw [attractStep, attractStep, hs, ht]
      show attractPass keys es p (attractStep keys p v e) =
        attractPass keys ds p (attractStep keys p v d)
      rw [hstep]
      exact ih ds _ hmap

/-- C10.  Noninterference of non-geometric fields: the output position map
depends only on the list order, `id` and `service` of the nodes and the
`service`, `source`, `target` of the edges; inputs that agree on these (but
may differ in node `label`/`row_count` or edge `source_column`,
`target_column`, `inferred`) produce identical position maps. -/
theorem layout_noninterference (nodes₁ nodes₂ : List LineageNode)
    (edges₁ edges₂ : List LineageEdge)
    (hn : nodes₁.map projN = nodes₂.map projN)
    (he : edges₁.map projE = edges₂.map projE) :
    useForceLayout nodes₁ edges₁ = useForceLayout nodes₂ edges₂ := by
  have hkeys : nodes₁.map nodeKey = nodes₂.map nodeKey := mapKey_congr hn
  by_cases h0 : nodes₁ = []
  · have h0' : nodes₂ = [] := by
      have : (nodes₂.map projN).length = 0 := by rw [← hn, h0]; rfl
      rcases nodes₂ with _ | _
      · rfl
      · simp at this
    rw [useForceLayout, useForceLayout, if_pos h0, if_pos h0']
  · have h0' : nodes₂ ≠ [] := by
      intro hcon
      apply h0
      have : (nodes₁.map projN).length = 0 := by rw [hn, hcon]; rfl
      rcases nodes₁ with _ | _
      · rfl
      · simp at this
    have hstep : stepSim (insKeys (nodes₁.map nodeKey)) edges₁ =
        stepSim (insKeys (nodes₂.map nodeKey)) edges₂ := by
      funext pv
      rw [hkeys, stepSim, stepSim, attractPass_congr _ _ _ _ _ he]
    have hsim : simFinal nodes₁ edges₁ = simFinal nodes₂ edges₂ := by
      rw [simFinal, simFinal, hstep, seedPos_congr hn]
    rw [useForceLayout_eq nodes₁ edges₁ h0, useForceLayout_eq nodes₂ edges₂ h0',
      hkeys, hsim]

/-- Witness for C10: two concrete inputs differing only in `label`,
`row_count`, `source_column`, `target_column` and `inferred` have equal
layouts. -/
theorem layout_noninterference_witness :
    useForceLayout [⟨"t1", "Label A", 5, "svc"⟩]
        [⟨"t1", "t1", "c1", "c2", "svc", false⟩] =
      useForceLayout [⟨"t1", "Other label", 99, "svc"⟩]
        [⟨"t1", "t1", "x", "y", "svc", true⟩] :=
  layout_noninterference _ _ _ _ rfl rfl

/-! ## Characterizations of the two force kernels -/

/-- `repelF` in vector form: the pair force is
`(REPEL / dist2 / dist) • (pb - pa)` with `dist2 = max (normSq (pb-pa)) 1`
and `dist = sqrt dist2`. -/
theorem repelF_eq_smul (pa pb : ℂ) :
    repelF pa pb =
      (REPEL / max (Complex.normSq (pb - pa)) 1 /
        Real.sqrt (max (Complex.normSq (pb - pa)) 1)) • (pb - pa) := by
  simp only [repelF, Complex.normSq_apply]
  apply Complex.ext
  · rw [Complex.smul_re, smul_eq_mul]
    ring
  · rw [Complex.smul_im, smul_eq_mul]
    ring

/-- The repulsion kernel is antisymmetric: swapping the pair negates the
force vector. -/
theorem repelF_swap (pa pb : ℂ) : repelF pb pa = -repelF pa pb := by
  rw [repelF_eq_smul, repelF_eq_smul]
  have h : pa - pb = -(pb - pa) := by ring
  rw [h, Complex.normSq_neg, smul_neg]

/-- The attraction kernel applied to coincident endpoints vanishes. -/
theorem attractF_self (q : ℂ) : attractF q q = 0 := by
  simp only [attractF, sub_self, Complex.zero_re, Complex.zero_im, zero_div,
    zero_mul]
  rfl

/-- `attractF` in vector form for distinct endpoints: a Hookean spring of
signed magnitude `(dist - GAP*1.6) * ATTRACT` along the unit vector from
source to target. -/
theorem attractF_eq_smul (ps pt : ℂ) (h : ps ≠ pt) :
    attractF ps pt =
      ((Complex.abs (pt - ps) - GAP * 1.6) * ATTRACT) •
        ((pt - ps) / (Complex.abs (pt - ps) : ℝ)) := by
  have hq : pt - ps ≠ 0 := sub_ne_zero.mpr (Ne.symm h)
  have habs : Complex.abs (pt - ps) ≠ 0 := fun hc => hq (Complex.abs.eq_zero.mp hc)
  have hsqrt : Real.sqrt ((pt - ps).re * (pt - ps).re + (pt - ps).im * (pt - ps).im)
      = Complex.abs (pt - ps) := by
    rw [Complex.abs_apply, Complex.normSq_apply]
  have hdiv : (pt - ps) / ((Complex.abs (pt - ps) : ℝ) : ℂ) =
      ((Complex.abs (pt - ps))⁻¹ : ℝ) • (pt - ps) := by
    rw [Complex.real_smul, Complex.ofReal_inv, div_eq_inv_mul]
  rw [hdiv, smul_smul]
  simp only [attractF, jsOr, hsqrt, if_neg habs]
  apply Complex.ext
  · rw [Complex.smul_re, smul_eq_mul]
    show (pt - ps).re / Complex.abs (pt - ps) *
      ((Complex.abs (pt - ps) - GAP * 1.6) * ATTRACT) = _
    field_simp
    ring
  · rw [Complex.smul_im, smul_eq_mul]
    show (pt - ps).im / Complex.abs (pt - ps) *
      ((Complex.abs (pt - ps) - GAP * 1.6) * ATTRACT) = _
    field_simp
    ring

/-! ## Additivity of the two passes -/

theorem repelStep_core (v : String → ℂ) (a b k : String) (f : ℂ) (hab : a ≠ b) :
    Function.update (Function.update v a (v a - f)) b
      ((Function.update v a (v a - f)) b + f) k =
    v k + (if k = a then -f else if k = b then f else 0) := by
  have hba : (Function.update v a (v a - f)) b = v b :=
    Function.update_noteq (Ne.symm hab) _ _
  rw [hba]
  by_cases hk1 : k = b
  · subst hk1
    rw [Function.update_same, if_neg (Ne.symm hab), if_pos rfl]
  · rw [Function.update_noteq hk1]
    by_cases hk2 : k = a
    · subst hk2
      rw [Function.update_same, if_pos rfl]
      ring
    · rw [Function.update_noteq hk2, if_neg hk2, if_neg hk1, add_zero]

theorem pairs_mem {α : Type} (l : List α) (ab : α × α) (h : ab ∈ pairs l) :
    ab.1 ∈ l ∧ ab.2 ∈ l := by
  induction l with
  | nil => cases h
  | cons x xs ih =>
    rw [pairs, List.mem_append] at h
    rcases h with h | h
    · obtain ⟨y, hy, rfl⟩ := List.mem_map.mp h
      exact ⟨List.mem_cons_self _ _, List.mem_cons_of_mem _ hy⟩
    · obtain ⟨h1, h2⟩ := ih h
      exact ⟨List.mem_cons_of_mem _ h1, List.mem_cons_of_mem _ h2⟩

theorem pairs_ne {α : Type} (l : List α) (hnd : l.Nodup) (ab : α × α)
    (h : ab ∈ pairs l) : ab.1 ≠ ab.2 := by
  induction l with
  | nil => cases h
  | cons x xs ih =>
    obtain ⟨hx, hxs⟩ := List.nodup_cons.mp hnd
    rw [pairs, List.mem_append] at h
    rcases h with h | h
    · obtain ⟨y, hy, rfl⟩ := List.mem_map.mp h
      intro hcon
      have hxy : x = y := hcon
      exact hx (hxy.symm ▸ hy)
    · exact ih hxs h

theorem repelStep_eq (p v : String → ℂ) (ab : String × String) (k : String)
    (hab : ab.1 ≠ ab.2) :
    repelStep p v ab k = v k + pairContrib p k ab := by
  show Function.update
      (Function.update v ab.1 (v ab.1 - repelF (p ab.1) (p ab.2))) ab.2
      ((Function.update v ab.1 (v ab.1 - repelF (p ab.1) (p ab.2))) ab.2 +
        repelF (p ab.1) (p ab.2)) k = _
  rw [repelStep_core v ab.1 ab.2 k _ hab, pairContrib]

theorem repelPass_foldl (p : String → ℂ) (L : List (String × String))
    (hd : ∀ ab ∈ L, ab.1 ≠ ab.2) : ∀ (v : String → ℂ) (k : String),
    L.foldl (repelStep p) v k = v k + (L.map (pairContrib p k)).sum := by
  induction L with
  | nil =>
    intro v k
    rw [List.foldl_nil, List.map_nil, List.sum_nil, add_zero]
  | cons ab L ih =>
    intro v k
    rw [List.foldl_cons, List.map_cons, List.sum_cons,
      ih (fun x hx => hd x (List.mem_cons_of_mem _ hx)) _ k,
      repelStep_eq p v ab k (hd ab (List.mem_cons_self _ _))]
    ring

/-- The repulsion pass adds, to each key's velocity, the sum of the per-pair
contributions. -/
theorem repelPass_additive (keys : List String) (p v : String → ℂ) (k : String)
    (hnd : keys.Nodup) :
    repelPass keys p v k = v k + ((pairs keys).map (pairContrib p k)).sum :=
  repelPass_foldl p (pairs keys) (pairs_ne keys hnd) v k

theorem sum_ite_single (g : String → ℂ) (k : String) :
    ∀ l : List String, l.Nodup → k ∈ l →
      (l.map fun y => if k = y then g y else 0).sum = g k := by
  intro l
  induction l with
  | nil => intro _ h; exact absurd h (List.not_mem_nil k)
  | cons x xs ih =>
    intro hnd hk
    obtain ⟨hx, hxs⟩ := List.nodup_cons.mp hnd
    rw [List.map_cons, List.sum_cons]
    by_cases hkx : k = x
    · subst hkx
      rw [if_pos rfl]
      have : (xs.map fun y => if k = y then g y else 0).sum = 0 := by
        apply List.sum_eq_zero
        intro c hc
        obtain ⟨y, hy, rfl⟩ := List.mem_map.mp hc
        rw [if_neg (by intro hcon; exact hx (hcon.symm ▸ hy))]
      rw [this, add_zero]
    · have hk' : k ∈ xs := by
        rcases List.mem_cons.mp hk with h | h
        · exact absurd h hkx
        · exact h
      rw [if_neg hkx, ih hxs hk', zero_add]

theorem sum_pairContrib (p : String → ℂ) (k : String) :
    ∀ l : List String, l.Nodup → k ∈ l →
      ((pairs l).map (pairContrib p k)).sum =
        ((l.erase k).map fun j => -repelF (p k) (p j)).sum := by
  intro l
  induction l with
  | nil => intro _ h; exact absurd h (List.not_mem_nil k)
  | cons x xs ih =>
    intro hnd hk
    obtain ⟨hx, hxs⟩ := List.nodup_cons.mp hnd
    rw [pairs, List.map_append, List.sum_append]
    by_cases hkx : k = x
    · subst hkx
      have h1 : ((xs.map fun y => (k, y)).map (pairContrib p k)).sum =
          (xs.map fun j => -repelF (p k) (p j)).sum := by
        rw [List.map_map]
        apply congrArg
        apply List.map_congr_left
        intro y _
        show pairContrib p k (k, y) = -repelF (p k) (p y)
        simp [pairContrib]
      have h2 : ((pairs xs).map (pairContrib p k)).sum = 0 := by
        apply List.sum_eq_zero
        intro c hc
        obtain ⟨ab, hab, rfl⟩ := List.mem_map.mp hc
        obtain ⟨hm1, hm2⟩ := pairs_mem xs ab hab
        rw [pairContrib, if_neg (by intro hcon; exact hx (hcon.symm ▸ hm1)),
          if_neg (by intro hcon; exact hx (hcon.symm ▸ hm2))]
      rw [h1, h2, add_zero, List.erase_cons_head]
    · have hk' : k ∈ xs := by
        rcases List.mem_cons.mp hk with h | h
        · exact absurd h hkx
        · exact h
      have h1 : ((xs.map fun y => (x, y)).map (pairContrib p k)).sum =
          -repelF (p k) (p x) := by
        rw [List.map_map]
        have he : ∀ y ∈ xs, pairContrib p k (x, y) =
            if k = y then repelF (p x) (p k) else 0 := by
          intro y hy
          show (if k = x then -repelF (p x) (p y)
            else if k = y then repelF (p x) (p y) else 0) = _
          rw [if_neg hkx]
          by_cases h : k = y
          · rw [if_pos h, if_pos h, h]
          · rw [if_neg h, if_neg h]
        show (xs.map fun y => pairContrib p k (x, y)).sum = _
        rw [List.map_congr_left he,
          sum_ite_single (fun _ => repelF (p x) (p k)) k xs hxs hk',
          repelF_swap]
      rw [h1, ih hxs hk',
        List.erase_cons_tail (by
          simp only [beq_iff_eq]
          intro hcon
          exact hkx hcon.symm),
        List.map_cons, List.sum_cons]

/-! ## C3 : pairwise repulsion (corrected for the sub-unit distance floor) -/

/-- Counterexample to C3 as stated: for a pair at distance `1/2 < 1`, the
code's repulsion contribution is `9000`, not the claimed
`REPEL / max(d², 1) = 18000` along the normalized direction. -/
theorem repel_floor_counterexample :
    repelPass ["a", "b"]
        (fun k => if k = "b" then (((1 : ℝ) / 2 : ℝ) : ℂ) else 0) (fun _ => 0) "b" ≠
      (REPEL / max (Complex.normSq ((((1 : ℝ) / 2 : ℝ) : ℂ) - 0)) 1) •
        (((((1 : ℝ) / 2 : ℝ) : ℂ) - 0) /
          (Complex.abs ((((1 : ℝ) / 2 : ℝ) : ℂ) - 0) : ℝ)) := by
  have hL : repelPass ["a", "b"]
      (fun k => if k = "b" then (((1 : ℝ) / 2 : ℝ) : ℂ) else 0) (fun _ => 0) "b" =
      repelF 0 (((1 : ℝ) / 2 : ℝ) : ℂ) := by
    simp only [repelPass, repelStep, pairs, List.map_nil, List.map_cons,
      List.append_nil, List.nil_append, List.foldl_cons, List.foldl_nil]
    rw [Function.update_same,
      Function.update_noteq (show ("b" : String) ≠ "a" by decide)]
    rw [if_neg (show ¬("a" : String) = "b" by decide), if_true]
    show (0 : ℂ) + repelF 0 (((1 : ℝ) / 2 : ℝ) : ℂ) = _
    rw [zero_add]
  rw [hL, repelF_eq_smul]
  have h0 : ((((1 : ℝ) / 2 : ℝ) : ℂ) - 0) = (((1 : ℝ) / 2 : ℝ) : ℂ) := by ring
  rw [h0, Complex.normSq_ofReal, Complex.abs_ofReal]
  have h1 : max ((1 : ℝ) / 2 * ((1 : ℝ) / 2)) 1 = 1 := by
    rw [max_eq_right]
    norm_num
  rw [h1, Real.sqrt_one]
  intro hcon
  have hre := congrArg Complex.re hcon
  rw [Complex.smul_re, Complex.smul_re] at hre
  have h2 : |(1 : ℝ) / 2| = (1 : ℝ) / 2 := by
    rw [abs_of_pos]
    norm_num
  rw [h2] at hre
  have h3 : ((((1 : ℝ) / 2 : ℝ) : ℂ) / (((1 : ℝ) / 2 : ℝ) : ℂ)).re = 1 := by
    rw [div_self (by
      intro hcon2
      rw [Complex.ofReal_eq_zero] at hcon2
      norm_num at hcon2), Complex.one_re]
  rw [h3, Complex.ofReal_re, REPEL] at hre
  norm_num at hre

/-- C3 (amended).  In every iteration each key's velocity receives the sum,
over all other keys, of a repulsion contribution; for a pair at distance
`d ≥ 1` that contribution equals `REPEL / max(d², 1)` applied along the
normalized direction away from the other node (for `d < 1` the code instead
divides by `sqrt(max(d², 1)) = 1`, scaling the force by `d`); the two
members of a pair always receive equal-and-opposite contributions. -/
theorem repel_inverse_square (keys : List String) (p v : String → ℂ)
    (k : String) (hnd : keys.Nodup) (hk : k ∈ keys) :
    (repelPass keys p v k =
      v k + ((keys.erase k).map fun j => -repelF (p k) (p j)).sum) ∧
    (∀ pa pb : ℂ, 1 ≤ Complex.abs (pb - pa) →
      -repelF pa pb = (REPEL / max (Complex.normSq (pb - pa)) 1) •
        ((pa - pb) / (Complex.abs (pb - pa) : ℝ))) ∧
    (∀ pa pb : ℂ, repelF pb pa = -repelF pa pb) := by
  refine ⟨?_, ?_, repelF_swap⟩
  · rw [repelPass_additive keys p v k hnd, sum_pairContrib p k keys hnd hk]
  · intro pa pb hd
    have habs : Complex.abs (pb - pa) ≠ 0 := by positivity
    have hmax : max (Complex.normSq (pb - pa)) 1 = Complex.normSq (pb - pa) := by
      apply max_eq_left
      rw [← Complex.sq_abs]
      nlinarith
    have hsqrt : Real.sqrt (max (Complex.normSq (pb - pa)) 1) =
        Complex.abs (pb - pa) := by
      rw [hmax, ← Complex.abs_apply]
    rw [repelF_eq_smul, hsqrt, hmax]
    have hns : Complex.normSq (pb - pa) ≠ 0 := by
      intro hcon
      exact habs (by rw [Complex.abs_apply, hcon, Real.sqrt_zero])
    have hc1 : ((Complex.normSq (pb - pa) : ℝ) : ℂ) ≠ 0 :=
      Complex.ofReal_ne_zero.mpr hns
    have hc2 : ((Complex.abs (pb - pa) : ℝ) : ℂ) ≠ 0 :=
      Complex.ofReal_ne_zero.mpr habs
    rw [Complex.real_smul, Complex.real_smul, Complex.ofReal_div,
      Complex.ofReal_div]
    field_simp
    ring

/-- Witness for C3 (amended) at a concrete two-key input. -/
theorem repel_inverse_square_witness :
    (repelPass ["a", "b"] (fun _ => 0) (fun _ => 0) "a" =
      (fun _ => (0 : ℂ)) "a" +
        ((["a", "b"].erase "a").map fun j =>
          -repelF ((fun _ => (0 : ℂ)) "a") ((fun _ => (0 : ℂ)) j)).sum) ∧
    (∀ pa pb : ℂ, 1 ≤ Complex.abs (pb - pa) →
      -repelF pa pb = (REPEL / max (Complex.normSq (pb - pa)) 1) •
        ((pa - pb) / (Complex.abs (pb - pa) : ℝ))) ∧
    (∀ pa pb : ℂ, repelF pb pa = -repelF pa pb) :=
  repel_inverse_square ["a", "b"] (fun _ => 0) (fun _ => 0) "a"
    (by decide) (by decide)

/-! ## C4 : edge attraction is a Hookean spring per edge -/

theorem attractStep_core (v : String → ℂ) (a b k : String) (f : ℂ) (hab : a ≠ b) :
    Function.update (Function.update v a (v a + f)) b
      ((Function.update v a (v a + f)) b - f) k =
    v k + (if k = a then f else if k = b then -f else 0) := by
  have hba : (Function.update v a (v a + f)) b = v b :=
    Function.update_noteq (Ne.symm hab) _ _
  rw [hba]
  by_cases hk1 : k = b
  · subst hk1
    rw [Function.update_same, if_neg (Ne.symm hab), if_pos rfl]
    ring
  · rw [Function.update_noteq hk1]
    by_cases hk2 : k = a
    · subst hk2
      rw [Function.update_same, if_pos rfl]
    · rw [Function.update_noteq hk2, if_neg hk2, if_neg hk1, add_zero]

theorem attractStep_eq (keys : List String) (p v : String → ℂ)
    (e : LineageEdge) (k : String) :
    attractStep keys p v e k = v k + edgeContrib keys p k e := by
  by_cases hpres : edgeSrcKey e ∈ keys ∧ edgeTgtKey e ∈ keys
  · by_cases hst : edgeSrcKey e = edgeTgtKey e
    · have hf : attractF (p (edgeSrcKey e)) (p (edgeTgtKey e)) = 0 := by
        rw [hst]
        exact attractF_self _
      simp only [attractStep]
      rw [if_pos hpres, hf, add_zero, Function.update_eq_self, sub_zero,
        Function.update_eq_self, edgeContrib, if_pos hpres, hf]
      simp
    · simp only [attractStep]
      rw [if_pos hpres, attractStep_core v _ _ k _ hst, edgeContrib,
        if_pos hpres]
  · simp only [attractStep]
    rw [if_neg hpres, edgeContrib, if_neg hpres, add_zero]

/-- The attraction pass adds, to each key's velocity, the sum over the edge
list (with multiplicity: each edge is an independent spring) of per-edge
contributions. -/
theorem attractPass_additive (keys : List String) (edges : List LineageEdge)
    (p : String → ℂ) : ∀ (v : String → ℂ) (k : String),
    attractPass keys edges p v k =
      v k + (edges.map (edgeContrib keys p k)).sum := by
  induction edges with
  | nil =>
    intro v k
    rw [List.map_nil, List.sum_nil, add_zero]
    rfl
  | cons e es ih =>
    intro v k
    show attractPass keys es p (attractStep keys p v e) k = _
    rw [ih (attractStep keys p v e) k, attractStep_eq keys p v e k,
      List.map_cons, List.sum_cons]
    ring

/-- C4.  In every iteration, each edge whose two endpoint keys are present
adds a Hookean spring of signed magnitude
`(currentDistance - idealDistance) * ATTRACT` with
`idealDistance = GAP * 1.6`, directed along the line between the endpoint
positions, equal-and-opposite on the two endpoints, touching no other key;
the pass sums the contributions of all edges in the list, so multiple edges
between the same pair are independent springs. -/
theorem attract_spring (keys : List String) (edges : List LineageEdge)
    (p v : String → ℂ) (k : String) (e : LineageEdge)
    (hs : edgeSrcKey e ∈ keys) (ht : edgeTgtKey e ∈ keys)
    (hne : p (edgeSrcKey e) ≠ p (edgeTgtKey e)) :
    (attractPass keys edges p v k =
      v k + (edges.map (edgeContrib keys p k)).sum) ∧
    edgeContrib keys p (edgeSrcKey e) e =
      ((Complex.abs (p (edgeTgtKey e) - p (edgeSrcKey e)) - GAP * 1.6) *
        ATTRACT) •
        ((p (edgeTgtKey e) - p (edgeSrcKey e)) /
          (Complex.abs (p (edgeTgtKey e) - p (edgeSrcKey e)) : ℝ)) ∧
    edgeContrib keys p (edgeTgtKey e) e = -edgeContrib keys p (edgeSrcKey e) e ∧
    (∀ j, j ≠ edgeSrcKey e → j ≠ edgeTgtKey e → edgeContrib keys p j e = 0) := by
  have hstne : edgeSrcKey e ≠ edgeTgtKey e := fun hcon => hne (by rw [hcon])
  refine ⟨attractPass_additive keys edges p v k, ?_, ?_, ?_⟩
  · rw [edgeContrib, if_pos ⟨hs, ht⟩, if_pos rfl]
    exact attractF_eq_smul _ _ hne
  · have h1 : edgeContrib keys p (edgeSrcKey e) e =
        attractF (p (edgeSrcKey e)) (p (edgeTgtKey e)) := by
      rw [edgeContrib, if_pos ⟨hs, ht⟩, if_pos rfl]
    have h2 : edgeContrib keys p (edgeTgtKey e) e =
        -attractF (p (edgeSrcKey e)) (p (edgeTgtKey e)) := by
      rw [edgeContrib, if_pos ⟨hs, ht⟩, if_neg (Ne.symm hstne), if_pos rfl]
    rw [h1, h2]
  · intro j hjs hjt
    rw [edgeContrib]
    by_cases hpres : edgeSrcKey e ∈ keys ∧ edgeTgtKey e ∈ keys
    · rw [if_pos hpres, if_neg hjs, if_neg hjt]
    · rw [if_neg hpres]

/-- Witness for C4 at a concrete edge with endpoint positions `0` and
`⟨4, 3⟩` (distance 5). -/
theorem attract_spring_witness :
    (attractPass ["s:a", "s:b"] [] wP wP "s:a" =
      wP "s:a" + (([] : List LineageEdge).map
        (edgeContrib ["s:a", "s:b"] wP "s:a")).sum) ∧
    edgeContrib ["s:a", "s:b"] wP (edgeSrcKey wE) wE =
      ((Complex.abs (wP (edgeTgtKey wE) - wP (edgeSrcKey wE)) - GAP * 1.6) *
        ATTRACT) •
        ((wP (edgeTgtKey wE) - wP (edgeSrcKey wE)) /
          (Complex.abs (wP (edgeTgtKey wE) - wP (edgeSrcKey wE)) : ℝ)) ∧
    edgeContrib ["s:a", "s:b"] wP (edgeTgtKey wE) wE =
      -edgeContrib ["s:a", "s:b"] wP (edgeSrcKey wE) wE ∧
    (∀ j, j ≠ edgeSrcKey wE → j ≠ edgeTgtKey wE →
      edgeContrib ["s:a", "s:b"] wP j wE = 0) :=
  attract_spring ["s:a", "s:b"] [] wP wP "s:a" wE (by decide) (by decide)
    (by
      show (0 : ℂ) ≠ ⟨4, 3⟩
      intro hcon
      have him := congrArg Complex.im hcon
      rw [Complex.zero_im] at him
      norm_num at him)

/-! ## C9 : both endpoint keys carry the edge's own service prefix -/

theorem colon_append_inj (c : Char) : ∀ (l₁ l₂ r₁ r₂ : List Char),
    c ∉ l₁ → c ∉ l₂ → l₁ ++ c :: r₁ = l₂ ++ c :: r₂ → l₁ = l₂ ∧ r₁ = r₂ := by
  intro l₁
  induction l₁ with
  | nil =>
    intro l₂ r₁ r₂ _ h₂ h
    cases l₂ with
    | nil =>
      rw [List.nil_append, List.nil_append] at h
      injection h with _ h2
      exact ⟨rfl, h2⟩
    | cons d ds =>
      rw [List.nil_append, List.cons_append] at h
      injection h with h1 _
      exact absurd (List.mem_cons.mpr (Or.inl h1)) h₂
  | cons x xs ih =>
    intro l₂ r₁ r₂ h₁ h₂ h
    cases l₂ with
    | nil =>
      rw [List.nil_append, List.cons_append] at h
      injection h with h1 _
      exact absurd (List.mem_cons.mpr (Or.inl h1.symm)) h₁
    | cons d ds =>
      rw [List.cons_append, List.cons_append] at h
      injection h with h1 h2
      obtain ⟨ha, hb⟩ := ih ds r₁ r₂
        (fun hc => h₁ (List.mem_cons_of_mem _ hc))
        (fun hc => h₂ (List.mem_cons_of_mem _ hc)) h2
      subst h1
      rw [ha]
      exact ⟨rfl, hb⟩

theorem key_data (s i : String) :
    (s ++ ":" ++ i).data = s.data ++ ':' :: i.data := by
  rw [String.data_append, String.data_append, List.append_assoc]
  rfl

/-- Composite keys `service ++ ":" ++ rest` parse uniquely when the service
part contains no colon. -/
theorem key_eq_parts {s₁ i₁ s₂ i₂ : String} (hc₁ : ':' ∉ s₁.data)
    (hc₂ : ':' ∉ s₂.data) (h : s₁ ++ ":" ++ i₁ = s₂ ++ ":" ++ i₂) :
    s₁ = s₂ ∧ i₁ = i₂ := by
  have hd := congrArg String.data h
  rw [key_data, key_data] at hd
  obtain ⟨h1, h2⟩ := colon_append_inj ':' s₁.data s₂.data i₁.data i₂.data
    hc₁ hc₂ hd
  exact ⟨String.ext h1, String.ext h2⟩

/-- Counterexample to C9 as stated: service names may contain colons, and
then composite keys are ambiguous — the edge
`{service := "a", source := "b:c", target := "d"}` has endpoint keys that
are the node keys of `{service := "a:b", id := "c"}` and
`{service := "a", id := "d"}`, two nodes of DIFFERENT services, so an edge
can connect nodes of different services. -/
theorem edge_cross_service_counterexample :
    nodeKey ⟨"c", "", 0, "a:b"⟩ = edgeSrcKey ⟨"b:c", "d", "", "", "a", false⟩ ∧
    nodeKey ⟨"d", "", 0, "a"⟩ = edgeTgtKey ⟨"b:c", "d", "", "", "a", false⟩ ∧
    LineageNode.service ⟨"c", "", 0, "a:b"⟩ ≠
      LineageNode.service ⟨"d", "", 0, "a"⟩ := by
  refine ⟨by decide, by decide, by decide⟩

/-- C9 (amended).  Both endpoint keys of an edge are built from the edge's
single `service` field as `service:source` and `service:target`; hence,
provided service names contain no colon (so composite keys parse uniquely),
any two nodes matched by an edge's endpoint keys belong to the edge's own
service — in particular to the same service. -/
theorem edge_same_service (e : LineageEdge) (n₁ n₂ : LineageNode)
    (hc₁ : ':' ∉ n₁.service.data) (hc₂ : ':' ∉ n₂.service.data)
    (hc₃ : ':' ∉ e.service.data)
    (h₁ : nodeKey n₁ = edgeSrcKey e) (h₂ : nodeKey n₂ = edgeTgtKey e) :
    n₁.service = e.service ∧ n₂.service = e.service ∧
      n₁.service = n₂.service := by
  rw [nodeKey, edgeSrcKey] at h₁
  rw [nodeKey, edgeTgtKey] at h₂
  obtain ⟨ha, _⟩ := key_eq_parts hc₁ hc₃ h₁
  obtain ⟨hb, _⟩ := key_eq_parts hc₂ hc₃ h₂
  exact ⟨ha, hb, by rw [ha, hb]⟩

/-- Witness for C9 (amended) at a concrete colon-free input. -/
theorem edge_same_service_witness :
    LineageNode.service ⟨"t", "", 0, "svc"⟩ =
      LineageEdge.service ⟨"t", "u", "", "", "svc", false⟩ ∧
    LineageNode.service ⟨"u", "", 0, "svc"⟩ =
      LineageEdge.service ⟨"t", "u", "", "", "svc", false⟩ ∧
    LineageNode.service ⟨"t", "", 0, "svc"⟩ =
      LineageNode.service ⟨"u", "", 0, "svc"⟩ :=
  edge_same_service ⟨"t", "u", "", "", "svc", false⟩ ⟨"t", "", 0, "svc"⟩
    ⟨"u", "", 0, "svc"⟩ (by decide) (by decide) (by decide)
    (by decide) (by decide)

/-! ## C8 : port selection by dominant axis -/

/-- C8.  The port-selection function compares `|dx|` with `|dy|` between the
two box centers; when `|dx| > |dy|` the connector exits the source's
right-edge midpoint if `dx > 0` (left-edge midpoint if `dx < 0`) and enters
the target on the facing horizontal side's midpoint; otherwise it exits the
source's bottom-edge midpoint if `dy > 0` (top-edge midpoint otherwise) and
enters the target on the facing vertical side's midpoint. -/
theorem edgePorts_dominant_axis (sp tp : ℂ) :
    (|centerX tp - centerX sp| > |centerY tp - centerY sp| →
      (centerX tp - centerX sp > 0 →
        edgePorts sp tp = mkPorts (rightMid sp) (leftMid tp)) ∧
      (centerX tp - centerX sp < 0 →
        edgePorts sp tp = mkPorts (leftMid sp) (rightMid tp))) ∧
    (¬ |centerX tp - centerX sp| > |centerY tp - centerY sp| →
      (centerY tp - centerY sp > 0 →
        edgePorts sp tp = mkPorts (bottomMid sp) (topMid tp)) ∧
      (¬ centerY tp - centerY sp > 0 →
        edgePorts sp tp = mkPorts (topMid sp) (bottomMid tp))) := by
  have hdx : tp.re + CARD_W / 2 - (sp.re + CARD_W / 2) = centerX tp - centerX sp := by
    rw [centerX, centerX]
  have hdy : tp.im + CARD_H / 2 - (sp.im + CARD_H / 2) = centerY tp - centerY sp := by
    rw [centerY, centerY]
  constructor
  · intro hd
    constructor
    · intro hx
      rw [edgePorts]
      simp only [hdx, hdy]
      rw [if_pos hd, if_pos hx]
      rfl
    · intro hx
      rw [edgePorts]
      simp only [hdx, hdy]
      rw [if_pos hd, if_neg (not_lt.mpr (le_of_lt hx))]
      rfl
  · intro hd
    constructor
    · intro hy
      rw [edgePorts]
      simp only [hdx, hdy]
      rw [if_neg hd, if_pos hy]
      rfl
    · intro hy
      rw [edgePorts]
      simp only [hdx, hdy]
      rw [if_neg hd, if_neg hy]
      rfl

/-- Witness for C8: a concrete horizontally-dominant pair, evaluated. -/
theorem edgePorts_dominant_axis_witness :
    (|centerX ⟨100, 10⟩ - centerX 0| > |centerY ⟨100, 10⟩ - centerY 0| →
      (centerX ⟨100, 10⟩ - centerX 0 > 0 →
        edgePorts 0 ⟨100, 10⟩ = mkPorts (rightMid 0) (leftMid ⟨100, 10⟩)) ∧
      (centerX ⟨100, 10⟩ - centerX 0 < 0 →
        edgePorts 0 ⟨100, 10⟩ = mkPorts (leftMid 0) (rightMid ⟨100, 10⟩))) ∧
    (¬ |centerX ⟨100, 10⟩ - centerX 0| > |centerY ⟨100, 10⟩ - centerY 0| →
      (centerY ⟨100, 10⟩ - centerY 0 > 0 →
        edgePorts 0 ⟨100, 10⟩ = mkPorts (bottomMid 0) (topMid ⟨100, 10⟩)) ∧
      (¬ centerY ⟨100, 10⟩ - centerY 0 > 0 →
        edgePorts 0 ⟨100, 10⟩ = mkPorts (topMid 0) (bottomMid ⟨100, 10⟩))) :=
  edgePorts_dominant_axis 0 ⟨100, 10⟩

/-! ## C7 : with no edges, repulsion strictly spreads the seeded circle

The seeds of an `n`-node input lie on a circle around `(400, 300)` at the
`n`-th roots of unity; the simulation is equivariant under the cyclic
symmetry of that configuration, so every iterate stays a scaled copy of the
seed circle, with a radius that strictly grows when there are no springs. -/

theorem eps_re (n i : ℕ) : (eps n i).re = Real.cos (2 * Real.pi * i / n) :=
  Complex.exp_ofReal_mul_I_re _

theorem eps_im (n i : ℕ) : (eps n i).im = Real.sin (2 * Real.pi * i / n) :=
  Complex.exp_ofReal_mul_I_im _

theorem abs_eps (n i : ℕ) : Complex.abs (eps n i) = 1 :=
  Complex.abs_exp_ofReal_mul_I _

theorem normSq_eps (n i : ℕ) : Complex.normSq (eps n i) = 1 := by
  rw [← Complex.sq_abs, abs_eps]
  norm_num

theorem eps_ne_zero (n i : ℕ) : eps n i ≠ 0 := Complex.exp_ne_zero _

theorem eps_add (n : ℕ) (hn : n ≠ 0) (i j : ℕ) :
    eps n (i + j) = eps n i * eps n j := by
  rw [eps, eps, eps, ← Complex.exp_add]
  congr 1
  have h : (n : ℂ) ≠ 0 := Nat.cast_ne_zero.mpr hn
  push_cast
  field_simp
  ring

theorem eps_nmul (n : ℕ) (hn : n ≠ 0) (q : ℕ) : eps n (n * q) = 1 := by
  rw [eps]
  have h : (((2 * Real.pi * ((n * q : ℕ) : ℝ) / n : ℝ)) : ℂ) * Complex.I =
      (q : ℤ) * (2 * Real.pi * Complex.I) := by
    have hn' : (n : ℂ) ≠ 0 := Nat.cast_ne_zero.mpr hn
    push_cast
    field_simp
    ring
  rw [h, Complex.exp_int_mul_two_pi_mul_I]

theorem eps_mod (n : ℕ) (hn : n ≠ 0) (m : ℕ) : eps n (m % n) = eps n m := by
  conv_rhs => rw [← Nat.mod_add_div m n]
  rw [eps_add n hn, eps_nmul n hn, mul_one]

theorem eps_inj (n i j : ℕ) (hn : n ≠ 0) (hi : i < n) (hj : j < n)
    (h : eps n i = eps n j) : i = j := by
  rw [eps, eps, Complex.exp_eq_exp_iff_exists_int] at h
  obtain ⟨k, hk⟩ := h
  have him := congrArg Complex.im hk
  simp only [Complex.add_im, Complex.mul_im, Complex.ofReal_re,
    Complex.ofReal_im, Complex.I_im, Complex.I_re, Complex.intCast_re,
    Complex.intCast_im, Complex.mul_re, Complex.re_ofNat, Complex.im_ofNat] at him
  -- him : 2π i / n = 2π j / n + k * 2π (up to arrangement)
  have hpi := Real.pi_pos
  have hn' : (n : ℝ) ≠ 0 := Nat.cast_ne_zero.mpr hn
  have hij : (i : ℝ) = j + k * n := by
    field_simp at him
    nlinarith [him]
  have hijz : (i : ℤ) = j + k * n := by exact_mod_cast hij
  have hiz : (i : ℤ) < n := by exact_mod_cast hi
  have hjz : (j : ℤ) < n := by exact_mod_cast hj
  have hi0 : (0 : ℤ) ≤ i := Int.ofNat_nonneg i
  have hj0 : (0 : ℤ) ≤ j := Int.ofNat_nonneg j
  have hnz : (0 : ℤ) < n := by exact_mod_cast Nat.pos_of_ne_zero hn
  have hk0 : k = 0 := by
    rcases lt_trichotomy k 0 with hneg | hzero | hpos
    · have h1 : k ≤ -1 := by omega
      nlinarith
    · exact hzero
    · have h1 : 1 ≤ k := by omega
      nlinarith
  have : (i : ℤ) = j := by rw [hijz, hk0]; ring
  exact_mod_cast this

/-- The seed value is `center + Rrad n * eps n i`. -/
theorem seedVal_eq (n i : ℕ) :
    seedVal n i = center + ((Rrad n : ℝ) : ℂ) * eps n i := by
  apply Complex.ext
  · show 400 + GAP * max 1 (((⌈Real.sqrt n⌉₊ : ℕ) : ℝ) / 2) *
      Real.cos (2 * Real.pi * i / n) = _
    rw [Complex.add_re, Complex.mul_re, Complex.ofReal_re, Complex.ofReal_im,
      eps_re, eps_im]
    show _ = 400 + (Rrad n * Real.cos (2 * Real.pi * i / n) -
      0 * Real.sin (2 * Real.pi * i / n))
    rw [Rrad]
    ring
  · show 300 + GAP * max 1 (((⌈Real.sqrt n⌉₊ : ℕ) : ℝ) / 2) *
      Real.sin (2 * Real.pi * i / n) = _
    rw [Complex.add_im, Complex.mul_im, Complex.ofReal_re, Complex.ofReal_im,
      eps_re, eps_im]
    show _ = 300 + (Rrad n * Real.sin (2 * Real.pi * i / n) +
      0 * Real.cos (2 * Real.pi * i / n))
    rw [Rrad]
    ring

theorem Rrad_pos (n : ℕ) : 0 < Rrad n := by
  rw [Rrad]
  have h1 : (0 : ℝ) < GAP := by rw [GAP]; norm_num
  have h2 : (1 : ℝ) ≤ max 1 (((⌈Real.sqrt n⌉₊ : ℕ) : ℝ) / 2) := le_max_left _ _
  nlinarith

theorem chord_symm (n d : ℕ) (h1 : 1 ≤ d) (h2 : d < n) :
    chord n (n - d) = chord n d := by
  have hn' : (n : ℝ) ≠ 0 := Nat.cast_ne_zero.mpr (by omega)
  have hang : 2 * Real.pi * ((n - d : ℕ) : ℝ) / n =
      2 * Real.pi - 2 * Real.pi * d / n := by
    rw [Nat.cast_sub (le_of_lt h2)]
    field_simp
    ring
  rw [chord, chord, Complex.normSq_apply, Complex.normSq_apply,
    Complex.sub_re, Complex.sub_im, Complex.sub_re, Complex.sub_im,
    Complex.one_re, Complex.one_im, eps_re, eps_im, eps_re, eps_im,
    hang, Real.cos_two_pi_sub, Real.sin_two_pi_sub]
  ring

theorem sin_eps_half (n d : ℕ) (hd : n = 2 * d) (h1 : 1 ≤ d) :
    Real.sin (2 * Real.pi * d / n) = 0 := by
  have hd' : (d : ℝ) ≠ 0 := Nat.cast_ne_zero.mpr (by omega)
  have hang : 2 * Real.pi * d / n = Real.pi := by
    rw [hd]
    push_cast
    field_simp
    ring
  rw [hang, Real.sin_pi]

theorem Mfac_pos (t : ℝ) : 0 < Mfac t := by
  rw [Mfac]
  have h1 : (0 : ℝ) < max t 1 := lt_of_lt_of_le one_pos (le_max_right t 1)
  have h2 : (0 : ℝ) < Real.sqrt (max t 1) := Real.sqrt_pos.mpr h1
  have h3 : (0 : ℝ) < REPEL := by rw [REPEL]; norm_num
  exact div_pos (div_pos h3 h1) h2

theorem Sval_pos (n : ℕ) (hn : 2 ≤ n) (ρ : ℝ) : 0 < Sval n ρ := by
  rw [Sval]
  apply Finset.sum_pos'
  · intro d _
    have hcos : Real.cos (2 * Real.pi * d / n) ≤ 1 := Real.cos_le_one _
    have hM := Mfac_pos (ρ ^ 2 * chord n d)
    nlinarith
  · refine ⟨1, Finset.mem_Ico.mpr ⟨le_refl 1, by omega⟩, ?_⟩
    have hnR : (0 : ℝ) < n := by
      have : 0 < n := by omega
      exact_mod_cast this
    have hx1 : 0 < 2 * Real.pi * ((1 : ℕ) : ℝ) / n := by
      rw [Nat.cast_one]
      positivity
    have hx2 : 2 * Real.pi * ((1 : ℕ) : ℝ) / n < 2 * Real.pi := by
      rw [Nat.cast_one, div_lt_iff₀ hnR]
      have h2 : (2 : ℝ) ≤ n := by exact_mod_cast hn
      nlinarith [Real.pi_pos]
    have hcos : Real.cos (2 * Real.pi * ((1 : ℕ) : ℝ) / n) < 1 := by
      rcases lt_or_eq_of_le (Real.cos_le_one (2 * Real.pi * ((1 : ℕ) : ℝ) / n))
        with h | h
      · exact h
      · exfalso
        have h0 := (Real.cos_eq_one_iff_of_lt_of_lt
          (by nlinarith [Real.pi_pos]) hx2).mp h
        exact (ne_of_gt hx1) h0
    have hM := Mfac_pos (ρ ^ 2 * chord n 1)
    nlinarith

/-- The repulsion contribution received by `pa` from the pair `(pa, pb)`
pushes `pa` away from `pb` with the kernel `Mfac`. -/
theorem repel_push (pa pb : ℂ) :
    -repelF pa pb = Mfac (Complex.normSq (pa - pb)) • (pa - pb) := by
  rw [repelF_eq_smul, show pb - pa = -(pa - pb) from by ring,
    Complex.normSq_neg, smul_neg, neg_neg, Mfac]

theorem symPos_sub (n : ℕ) (ρ : ℝ) (i j : ℕ) :
    symPos n ρ i - symPos n ρ j = (ρ : ℂ) * (eps n i - eps n j) := by
  rw [symPos, symPos]
  ring

theorem repel_term (n : ℕ) (hn : n ≠ 0) (ρ : ℝ) (i d : ℕ) :
    -repelF (symPos n ρ i) (symPos n ρ ((i + d) % n)) =
      ((Mfac (ρ ^ 2 * chord n d) : ℝ) : ℂ) *
        ((ρ : ℂ) * eps n i * (1 - eps n d)) := by
  rw [repel_push, symPos_sub]
  have he : eps n ((i + d) % n) = eps n i * eps n d := by
    rw [eps_mod n hn, eps_add n hn]
  rw [he, show eps n i - eps n i * eps n d = eps n i * (1 - eps n d) from
    by ring]
  have hns : Complex.normSq ((ρ : ℂ) * (eps n i * (1 - eps n d))) =
      ρ ^ 2 * chord n d := by
    rw [Complex.normSq_mul, Complex.normSq_mul, Complex.normSq_ofReal,
      normSq_eps, chord]
    ring
  rw [hns, Complex.real_smul]
  ring

theorem mod_shift_mem (n i d : ℕ) (hi : i < n) (h1 : 1 ≤ d) (h2 : d < n) :
    (i + d) % n ∈ (Finset.range n).erase i := by
  rw [Finset.mem_erase, Finset.mem_range]
  constructor
  · intro hcon
    by_cases hid : i + d < n
    · rw [Nat.mod_eq_of_lt hid] at hcon
      omega
    · have h3 : (i + d) % n = i + d - n := by
        rw [Nat.mod_eq_sub_mod (by omega), Nat.mod_eq_of_lt (by omega)]
      rw [h3] at hcon
      omega
  · exact Nat.mod_lt _ (by omega)

theorem mod_shift_surj (n i a : ℕ) (hi : i < n) (ha : a < n) (hne : a ≠ i) :
    ∃ d ∈ Finset.Ico 1 n, (i + d) % n = a := by
  refine ⟨(a + n - i) % n, ?_, ?_⟩
  · rw [Finset.mem_Ico]
    by_cases hai : i ≤ a
    · have h1 : (a + n - i) % n = a - i := by
        rw [Nat.mod_eq_sub_mod (by omega),
          show a + n - i - n = a - i from by omega,
          Nat.mod_eq_of_lt (by omega)]
      rw [h1]
      omega
    · have h1 : (a + n - i) % n = a + n - i := Nat.mod_eq_of_lt (by omega)
      rw [h1]
      omega
  · by_cases hai : i ≤ a
    · have h1 : (a + n - i) % n = a - i := by
        rw [Nat.mod_eq_sub_mod (by omega),
          show a + n - i - n = a - i from by omega,
          Nat.mod_eq_of_lt (by omega)]
      rw [h1, show i + (a - i) = a from by omega, Nat.mod_eq_of_lt ha]
    · have h1 : (a + n - i) % n = a + n - i := Nat.mod_eq_of_lt (by omega)
      rw [h1, show i + (a + n - i) = a + n from by omega, Nat.add_mod_right,
        Nat.mod_eq_of_lt ha]

theorem mod_shift_inj (n i : ℕ) (hi : i < n) (d₁ d₂ : ℕ)
    (hd₁ : d₁ ∈ Finset.Ico 1 n) (hd₂ : d₂ ∈ Finset.Ico 1 n)
    (h : (i + d₁) % n = (i + d₂) % n) : d₁ = d₂ := by
  obtain ⟨ha1, ha2⟩ := Finset.mem_Ico.mp hd₁
  obtain ⟨hb1, hb2⟩ := Finset.mem_Ico.mp hd₂
  have hv : ∀ d, 1 ≤ d → d < n →
      (i + d) % n = if i + d < n then i + d else i + d - n := by
    intro d hx1 hx2
    by_cases hid : i + d < n
    · rw [Nat.mod_eq_of_lt hid, if_pos hid]
    · rw [if_neg hid, Nat.mod_eq_sub_mod (by omega),
        Nat.mod_eq_of_lt (by omega)]
  rw [hv d₁ ha1 ha2, hv d₂ hb1 hb2] at h
  split_ifs at h <;> omega

/-- The image of `Ico 1 n` under `d ↦ (i + d) % n` is `range n` minus `i`. -/
theorem mod_shift_image (n i : ℕ) (hi : i < n) :
    (Finset.Ico 1 n).image (fun d => (i + d) % n) =
      (Finset.range n).erase i := by
  apply Finset.ext
  intro a
  rw [Finset.mem_image]
  constructor
  · rintro ⟨d, hd, rfl⟩
    obtain ⟨h1, h2⟩ := Finset.mem_Ico.mp hd
    exact mod_shift_mem n i d hi h1 h2
  · intro ha
    obtain ⟨hne, haR⟩ := Finset.mem_erase.mp ha
    obtain ⟨d, hd, hda⟩ := mod_shift_surj n i a hi (Finset.mem_range.mp haR) hne
    exact ⟨d, hd, hda⟩

/-- The complex coefficient sum is the real value `Sval`:  its imaginary part
cancels by the pairing `d ↦ n - d`. -/
theorem Sc_real (n : ℕ) (ρ : ℝ) :
    ∑ d in Finset.Ico 1 n,
      ((Mfac (ρ ^ 2 * chord n d) : ℝ) : ℂ) * (1 - eps n d) =
      ((Sval n ρ : ℝ) : ℂ) := by
  apply Complex.ext
  · rw [Complex.re_sum, Complex.ofReal_re, Sval]
    apply Finset.sum_congr rfl
    intro d _
    rw [Complex.mul_re, Complex.ofReal_re, Complex.ofReal_im, Complex.sub_re,
      Complex.sub_im, Complex.one_re, Complex.one_im, eps_re, eps_im]
    ring
  · rw [Complex.im_sum, Complex.ofReal_im]
    have hcongr : ∀ d ∈ Finset.Ico 1 n,
        (((Mfac (ρ ^ 2 * chord n d) : ℝ) : ℂ) * (1 - eps n d)).im =
        Mfac (ρ ^ 2 * chord n d) * (0 - Real.sin (2 * Real.pi * d / n)) := by
      intro d _
      rw [Complex.mul_im, Complex.ofReal_re, Complex.ofReal_im, Complex.sub_im,
        Complex.sub_re, Complex.one_im, Complex.one_re, eps_im, eps_re]
      ring
    rw [Finset.sum_congr rfl hcongr]
    apply Finset.sum_involution (fun d _ => n - d)
    · intro d hd
      obtain ⟨h1, h2⟩ := Finset.mem_Ico.mp hd
      rw [chord_symm n d h1 h2]
      have hn' : (n : ℝ) ≠ 0 := Nat.cast_ne_zero.mpr (by omega)
      have hang : 2 * Real.pi * ((n - d : ℕ) : ℝ) / n =
          2 * Real.pi - 2 * Real.pi * d / n := by
        rw [Nat.cast_sub (le_of_lt h2)]
        field_simp
        ring
      rw [hang, Real.sin_two_pi_sub]
      ring
    · intro d hd hne hcon
      obtain ⟨h1, h2⟩ := Finset.mem_Ico.mp hd
      have hnd : n = 2 * d := by omega
      apply hne
      rw [sin_eps_half n d hnd h1]
      ring
    · intro d hd
      obtain ⟨h1, h2⟩ := Finset.mem_Ico.mp hd
      rw [Finset.mem_Ico]
      omega
    · intro d hd
      obtain ⟨h1, h2⟩ := Finset.mem_Ico.mp hd
      omega

/-- Net repulsion on node `i` of the symmetric configuration: a positive real
multiple of the outward radial direction `eps n i`. -/
theorem force_sum (n : ℕ) (hn : 2 ≤ n) (ρ : ℝ) (i : ℕ) (hi : i < n) :
    ∑ j in (Finset.range n).erase i,
      -repelF (symPos n ρ i) (symPos n ρ j) =
      ((Sval n ρ : ℝ) : ℂ) * ((ρ : ℂ) * eps n i) := by
  have hn0 : n ≠ 0 := by omega
  rw [← mod_shift_image n i hi,
    Finset.sum_image (fun x hx y hy hxy => mod_shift_inj n i hi x y hx hy hxy)]
  have hterm : ∀ d ∈ Finset.Ico 1 n,
      -repelF (symPos n ρ i) (symPos n ρ ((i + d) % n)) =
      ((ρ : ℂ) * eps n i) *
        (((Mfac (ρ ^ 2 * chord n d) : ℝ) : ℂ) * (1 - eps n d)) := by
    intro d _
    rw [repel_term n hn0 ρ i d]
    ring
  rw [Finset.sum_congr rfl hterm, ← Finset.mul_sum, Sc_real n ρ]
  ring

theorem sum_map_erase (F : String → ℂ) (a : String) :
    ∀ l : List String, a ∈ l →
      ((l.erase a).map F).sum = (l.map F).sum - F a := by
  intro l
  induction l with
  | nil => intro h; exact absurd h (List.not_mem_nil a)
  | cons x xs ih =>
    intro h
    by_cases hax : x = a
    · subst hax
      rw [List.erase_cons_head, List.map_cons, List.sum_cons]
      ring
    · have ha' : a ∈ xs := by
        rcases List.mem_cons.mp h with h | h
        · exact absurd h.symm hax
        · exact h
      rw [List.erase_cons_tail (by simp only [beq_iff_eq]; exact hax),
        List.map_cons, List.map_cons, List.sum_cons, List.sum_cons, ih ha']
      ring

theorem list_sum_eq_range (F : String → ℂ) : ∀ l : List String,
    (l.map F).sum = ∑ m in Finset.range l.length, F (l.getD m "") := by
  intro l
  induction l with
  | nil =>
    rw [List.map_nil, List.sum_nil, List.length_nil, Finset.range_zero,
      Finset.sum_empty]
  | cons x xs ih =>
    rw [List.map_cons, List.sum_cons, List.length_cons,
      Finset.sum_range_succ', ih]
    have hcongr : ∀ m ∈ Finset.range xs.length,
        F ((x :: xs).getD (m + 1) "") = F (xs.getD m "") := fun m _ => rfl
    rw [Finset.sum_congr rfl hcongr, show ((x :: xs).getD 0 "") = x from rfl]
    ring

theorem sum_erase_key (nodes : List LineageNode) (F : String → ℂ) (j : ℕ)
    (hj : j < nodes.length) :
    (((nodes.map nodeKey).erase (kfn nodes j)).map F).sum =
      ∑ m in (Finset.range nodes.length).erase j, F (kfn nodes m) := by
  simp only [kfn]
  have hlen : (nodes.map nodeKey).length = nodes.length := List.length_map _ _
  have hmem : (nodes.map nodeKey).getD j "" ∈ nodes.map nodeKey := by
    rw [List.getD_eq_getElem _ _ (by rw [hlen]; exact hj)]
    exact List.getElem_mem _
  rw [sum_map_erase F _ _ hmem, list_sum_eq_range, hlen]
  have hsplit := Finset.sum_erase_add (Finset.range nodes.length)
    (fun m => F ((nodes.map nodeKey).getD m "")) (Finset.mem_range.mpr hj)
  rw [← hsplit]
  ring

theorem seedFold_notmem (N : ℕ) : ∀ (l : List LineageNode) (i : ℕ)
    (f : String → ℂ) (k : String), k ∉ l.map nodeKey →
    (List.enumFrom i l).foldl
      (fun g q => Function.update g (nodeKey q.2) (seedVal N q.1)) f k =
      f k := by
  intro l
  induction l with
  | nil => intro i f k _; rfl
  | cons x xs ih =>
    intro i f k hk
    rw [List.map_cons, List.mem_cons, not_or] at hk
    obtain ⟨h1, h2⟩ := hk
    show (List.enumFrom (i + 1) xs).foldl _
      (Function.update f (nodeKey x) (seedVal N i)) k = f k
    rw [ih (i + 1) _ k h2, Function.update_noteq h1]

theorem seedFold_get (N : ℕ) : ∀ (l : List LineageNode) (i : ℕ)
    (f : String → ℂ) (j : ℕ) (hj : j < l.length), (l.map nodeKey).Nodup →
    (List.enumFrom i l).foldl
      (fun g q => Function.update g (nodeKey q.2) (seedVal N q.1)) f
      (nodeKey (l.get ⟨j, hj⟩)) = seedVal N (i + j) := by
  intro l
  induction l with
  | nil => intro i f j hj _; exact absurd hj (Nat.not_lt_zero j)
  | cons x xs ih =>
    intro i f j hj hnd
    rw [List.map_cons] at hnd
    obtain ⟨hx, hxs⟩ := List.nodup_cons.mp hnd
    cases j with
    | zero =>
      show (List.enumFrom (i + 1) xs).foldl _
        (Function.update f (nodeKey x) (seedVal N i)) (nodeKey x) =
        seedVal N (i + 0)
      rw [seedFold_notmem N xs (i + 1) _ _ hx, Function.update_same,
        Nat.add_zero]
    | succ j' =>
      show (List.enumFrom (i + 1) xs).foldl _
        (Function.update f (nodeKey x) (seedVal N i))
        (nodeKey (xs.get ⟨j', Nat.lt_of_succ_lt_succ hj⟩)) =
        seedVal N (i + (j' + 1))
      rw [ih (i + 1) _ j' (Nat.lt_of_succ_lt_succ hj) hxs]
      congr 1
      omega

theorem seedPos_get (nodes : List LineageNode)
    (hnd : (nodes.map nodeKey).Nodup) (j : ℕ) (hj : j < nodes.length) :
    seedPos nodes (kfn nodes j) = seedVal nodes.length j := by
  have hkey : kfn nodes j = nodeKey (nodes.get ⟨j, hj⟩) := by
    rw [kfn, List.getD_eq_getElem _ _ (by rw [List.length_map]; exact hj)]
    rw [List.getElem_map]
    rfl
  rw [hkey, seedPos]
  have := seedFold_get nodes.length nodes 0 (fun _ => 0) j hj hnd
  rw [Nat.zero_add] at this
  exact this

theorem integrate_notmem : ∀ (keys : List String) (p v : String → ℂ)
    (k : String), k ∉ keys →
    (integrate keys p v).1 k = p k ∧ (integrate keys p v).2 k = v k := by
  intro keys
  induction keys with
  | nil => intro p v k _; exact ⟨rfl, rfl⟩
  | cons x xs ih =>
    intro p v k hk
    rw [List.mem_cons, not_or] at hk
    obtain ⟨h1, h2⟩ := hk
    show (integrate xs (Function.update p x (p x + v x))
      (Function.update v x (DAMPING • v x))).1 k = p k ∧
      (integrate xs (Function.update p x (p x + v x))
        (Function.update v x (DAMPING • v x))).2 k = v k
    obtain ⟨ha, hb⟩ := ih _ _ k h2
    rw [ha, hb, Function.update_noteq h1, Function.update_noteq h1]
    exact ⟨rfl, rfl⟩

theorem integrate_apply : ∀ (keys : List String) (p v : String → ℂ)
    (k : String), keys.Nodup → k ∈ keys →
    (integrate keys p v).1 k = p k + v k ∧
    (integrate keys p v).2 k = DAMPING • v k := by
  intro keys
  induction keys with
  | nil => intro p v k _ h; exact absurd h (List.not_mem_nil k)
  | cons x xs ih =>
    intro p v k hnd hk
    obtain ⟨hx, hxs⟩ := List.nodup_cons.mp hnd
    show (integrate xs (Function.update p x (p x + v x))
      (Function.update v x (DAMPING • v x))).1 k = p k + v k ∧
      (integrate xs (Function.update p x (p x + v x))
        (Function.update v x (DAMPING • v x))).2 k = DAMPING • v k
    by_cases hkx : k = x
    · subst hkx
      obtain ⟨ha, hb⟩ := integrate_notmem xs _ _ k hx
      rw [ha, hb, Function.update_same, Function.update_same]
      exact ⟨rfl, rfl⟩
    · have hk' : k ∈ xs := by
        rcases List.mem_cons.mp hk with h | h
        · exact absurd h hkx
        · exact h
      obtain ⟨ha, hb⟩ := ih _ _ k hxs hk'
      rw [ha, hb, Function.update_noteq hkx, Function.update_noteq hkx]
      exact ⟨rfl, rfl⟩

theorem insKeys_go_nodup : ∀ (l acc : List String), (acc ++ l).Nodup →
    l.foldl (fun acc k => if k ∈ acc then acc else acc ++ [k]) acc =
      acc ++ l := by
  intro l
  induction l with
  | nil => intro acc _; rw [List.foldl_nil, List.append_nil]
  | cons x xs ih =>
    intro acc h
    have hx : x ∉ acc := fun hcon =>
      (List.nodup_append.mp h).2.2 hcon (List.mem_cons_self x xs)
    rw [List.foldl_cons, if_neg hx,
      ih (acc ++ [x]) (by rw [← List.append_cons]; exact h),
      ← List.append_cons]

theorem insKeys_of_nodup (l : List String) (h : l.Nodup) : insKeys l = l := by
  rw [insKeys]
  have := insKeys_go_nodup l [] (by rw [List.nil_append]; exact h)
  rw [List.nil_append] at this
  exact this

theorem rwSeq_pos (n : ℕ) (hn : 2 ≤ n) :
    ∀ k, 0 < (rwSeq n k).1 ∧ 0 ≤ (rwSeq n k).2 := by
  intro k
  induction k with
  | zero => exact ⟨Rrad_pos n, le_refl 0⟩
  | succ k ih =>
    obtain ⟨h1, h2⟩ := ih
    have hS := Sval_pos n hn (rwSeq n k).1
    constructor
    · show 0 < (rwSeq n k).1 +
        ((rwSeq n k).2 + (rwSeq n k).1 * Sval n (rwSeq n k).1)
      nlinarith
    · show 0 ≤ DAMPING *
        ((rwSeq n k).2 + (rwSeq n k).1 * Sval n (rwSeq n k).1)
      have hD : (0 : ℝ) < DAMPING := by rw [DAMPING]; norm_num
      have hw : 0 ≤ (rwSeq n k).2 + (rwSeq n k).1 * Sval n (rwSeq n k).1 := by
        nlinarith
      exact mul_nonneg (le_of_lt hD) hw

theorem rwSeq_growth (n : ℕ) (hn : 2 ≤ n) (k : ℕ) :
    (rwSeq n k).1 < (rwSeq n (k + 1)).1 := by
  obtain ⟨h1, h2⟩ := rwSeq_pos n hn k
  have hS := Sval_pos n hn (rwSeq n k).1
  show (rwSeq n k).1 < (rwSeq n k).1 +
    ((rwSeq n k).2 + (rwSeq n k).1 * Sval n (rwSeq n k).1)
  nlinarith

theorem rwSeq_final (n : ℕ) (hn : 2 ≤ n) : (rwSeq n 0).1 < (rwSeq n ITERS).1 := by
  have hmono : StrictMono fun k => (rwSeq n k).1 :=
    strictMono_nat_of_lt_succ (rwSeq_growth n hn)
  exact hmono (by rw [ITERS]; norm_num)

theorem kfn_mem (nodes : List LineageNode) (m : ℕ) (hm : m < nodes.length) :
    kfn nodes m ∈ nodes.map nodeKey := by
  rw [kfn, List.getD_eq_getElem _ _ (by rw [List.length_map]; exact hm)]
  exact List.getElem_mem _

/-- The cyclic-symmetry invariant: with no edges and `Nodup` keys, every
iterate of the simulation keeps all nodes on a common circle around
`center`, with radius and radial velocity given by the scalar recurrence
`rwSeq`. -/
theorem sim_invariant (nodes : List LineageNode) (hn2 : 2 ≤ nodes.length)
    (hnd : (nodes.map nodeKey).Nodup) :
    ∀ (k : ℕ) (j : ℕ), j < nodes.length →
    ((stepSim (nodes.map nodeKey) [])^[k] (seedPos nodes, fun _ => 0)).1
      (kfn nodes j) = symPos nodes.length (rwSeq nodes.length k).1 j ∧
    ((stepSim (nodes.map nodeKey) [])^[k] (seedPos nodes, fun _ => 0)).2
      (kfn nodes j) =
      (((rwSeq nodes.length k).2 : ℝ) : ℂ) * eps nodes.length j := by
  intro k
  induction k with
  | zero =>
    intro j hj
    rw [Function.iterate_zero_apply]
    constructor
    · show seedPos nodes (kfn nodes j) = _
      rw [seedPos_get nodes hnd j hj, seedVal_eq, symPos]
      rfl
    · show (0 : ℂ) = _
      rw [show ((rwSeq nodes.length 0).2 : ℝ) = 0 from rfl,
        Complex.ofReal_zero, zero_mul]
  | succ k ih =>
    intro j hj
    rw [Function.iterate_succ_apply']
    have hv1 : ∀ m, m < nodes.length →
        repelPass (nodes.map nodeKey)
          ((stepSim (nodes.map nodeKey) [])^[k] (seedPos nodes, fun _ => 0)).1
          ((stepSim (nodes.map nodeKey) [])^[k] (seedPos nodes, fun _ => 0)).2
          (kfn nodes m) =
        (((rwSeq nodes.length k).2 +
          (rwSeq nodes.length k).1 *
            Sval nodes.length (rwSeq nodes.length k).1 : ℝ) : ℂ) *
          eps nodes.length m := by
      intro m hm
      rw [repelPass_additive (nodes.map nodeKey) _ _ (kfn nodes m) hnd,
        sum_pairContrib _ (kfn nodes m) (nodes.map nodeKey) hnd
          (kfn_mem nodes m hm),
        sum_erase_key nodes _ m hm]
      have hcongr : ∀ m' ∈ (Finset.range nodes.length).erase m,
          -repelF
            (((stepSim (nodes.map nodeKey) [])^[k]
              (seedPos nodes, fun _ => 0)).1 (kfn nodes m))
            (((stepSim (nodes.map nodeKey) [])^[k]
              (seedPos nodes, fun _ => 0)).1 (kfn nodes m')) =
          -repelF (symPos nodes.length (rwSeq nodes.length k).1 m)
            (symPos nodes.length (rwSeq nodes.length k).1 m') := by
        intro m' hm'
        obtain ⟨_, hm'R⟩ := Finset.mem_erase.mp hm'
        rw [(ih m hm).1, (ih m' (Finset.mem_range.mp hm'R)).1]
      rw [Finset.sum_congr rfl hcongr,
        force_sum nodes.length hn2 _ m hm, (ih m hm).2]
      push_cast
      ring
    constructor
    · show (integrate (nodes.map nodeKey)
        ((stepSim (nodes.map nodeKey) [])^[k] (seedPos nodes, fun _ => 0)).1
        (repelPass (nodes.map nodeKey)
          ((stepSim (nodes.map nodeKey) [])^[k] (seedPos nodes, fun _ => 0)).1
          ((stepSim (nodes.map nodeKey) [])^[k]
            (seedPos nodes, fun _ => 0)).2)).1 (kfn nodes j) = _
      rw [(integrate_apply (nodes.map nodeKey) _ _ (kfn nodes j) hnd
        (kfn_mem nodes j hj)).1, (ih j hj).1, hv1 j hj, symPos, symPos,
        show (rwSeq nodes.length (k + 1)).1 =
          (rwSeq nodes.length k).1 + ((rwSeq nodes.length k).2 +
            (rwSeq nodes.length k).1 *
              Sval nodes.length (rwSeq nodes.length k).1) from rfl]
      push_cast
      ring
    · show (integrate (nodes.map nodeKey)
        ((stepSim (nodes.map nodeKey) [])^[k] (seedPos nodes, fun _ => 0)).1
        (repelPass (nodes.map nodeKey)
          ((stepSim (nodes.map nodeKey) [])^[k] (seedPos nodes, fun _ => 0)).1
          ((stepSim (nodes.map nodeKey) [])^[k]
            (seedPos nodes, fun _ => 0)).2)).2 (kfn nodes j) = _
      rw [(integrate_apply (nodes.map nodeKey) _ _ (kfn nodes j) hnd
        (kfn_mem nodes j hj)).2, hv1 j hj,
        show (rwSeq nodes.length (k + 1)).2 =
          DAMPING * ((rwSeq nodes.length k).2 +
            (rwSeq nodes.length k).1 *
              Sval nodes.length (rwSeq nodes.length k).1) from rfl,
        Complex.real_smul]
      push_cast
      ring

theorem lookup_graph (f : String → ℂ) : ∀ (l : List String) (k : String),
    k ∈ l → List.lookup k (l.map fun k => (k, f k)) = some (f k) := by
  intro l
  induction l with
  | nil => intro k h; exact absurd h (List.not_mem_nil k)
  | cons x xs ih =>
    intro k h
    rw [List.map_cons]
    by_cases hkx : k = x
    · subst hkx
      simp [List.lookup]
    · have h' : k ∈ xs := by
        rcases List.mem_cons.mp h with h | h
        · exact absurd h hkx
        · exact h
      have hbeq : (k == x) = false := by simp [hkx]
      have hstep : List.lookup k ((x, f x) :: xs.map fun k => (k, f k)) =
          List.lookup k (xs.map fun k => (k, f k)) := by
        show (match k == x with
          | true => some (f x)
          | false => List.lookup k (xs.map fun k => (k, f k))) = _
        rw [hbeq]
      rw [hstep]
      exact ih k h'

theorem useForceLayout_eq2 (nodes : List LineageNode)
    (edges : List LineageEdge) (h : nodes ≠ []) :
    useForceLayout nodes edges =
      (insKeys (nodes.map nodeKey)).map fun k => (k, layoutVal nodes edges k) := by
  rw [useForceLayout_eq nodes edges h]
  rfl

/-- Normalization does not change pairwise differences of output values. -/
theorem layoutVal_sub (nodes : List LineageNode) (edges : List LineageEdge)
    (k₁ k₂ : String) :
    layoutVal nodes edges k₁ - layoutVal nodes edges k₂ =
      simFinal nodes edges k₁ - simFinal nodes edges k₂ := by
  apply Complex.ext
  · rw [Complex.sub_re, Complex.sub_re]
    show (simFinal nodes edges k₁).re - _ + PAD -
      ((simFinal nodes edges k₂).re - _ + PAD) = _
    ring
  · rw [Complex.sub_im, Complex.sub_im]
    show (simFinal nodes edges k₁).im - _ + PAD -
      ((simFinal nodes edges k₂).im - _ + PAD) = _
    ring

/-- C7.  For every input of N ≥ 2 nodes (with distinct composite keys, as
the data model requires) and an empty edge list, every pairwise distance
between nodes in the final layout is strictly greater than the
corresponding pairwise distance between their seeded initial positions, and
no two nodes end at exactly the same coordinates. -/
theorem layout_repulsion_spreads (nodes : List LineageNode)
    (hn2 : 2 ≤ nodes.length) (hnd : (nodes.map nodeKey).Nodup)
    (i j : ℕ) (hi : i < nodes.length) (hj : j < nodes.length) (hij : i ≠ j) :
    ∃ pi pj : ℂ,
      List.lookup (kfn nodes i) (useForceLayout nodes []) = some pi ∧
      List.lookup (kfn nodes j) (useForceLayout nodes []) = some pj ∧
      Complex.abs (seedPos nodes (kfn nodes i) -
        seedPos nodes (kfn nodes j)) < Complex.abs (pi - pj) ∧
      pi ≠ pj := by
  have hne : nodes ≠ [] := by
    intro hcon
    rw [hcon] at hn2
    simp at hn2
  have hK : insKeys (nodes.map nodeKey) = nodes.map nodeKey :=
    insKeys_of_nodup _ hnd
  have hlook : ∀ m, m < nodes.length →
      List.lookup (kfn nodes m) (useForceLayout nodes []) =
        some (layoutVal nodes [] (kfn nodes m)) := by
    intro m hm
    rw [useForceLayout_eq2 nodes [] hne, hK]
    exact lookup_graph _ _ _ (kfn_mem nodes m hm)
  have hsim : ∀ m, m < nodes.length →
      simFinal nodes [] (kfn nodes m) =
        symPos nodes.length (rwSeq nodes.length ITERS).1 m := by
    intro m hm
    rw [simFinal, hK]
    exact (sim_invariant nodes hn2 hnd ITERS m hm).1
  have hfin : layoutVal nodes [] (kfn nodes i) - layoutVal nodes [] (kfn nodes j) =
      (((rwSeq nodes.length ITERS).1 : ℝ) : ℂ) *
        (eps nodes.length i - eps nodes.length j) := by
    rw [layoutVal_sub, hsim i hi, hsim j hj, symPos_sub]
  have hseed : seedPos nodes (kfn nodes i) - seedPos nodes (kfn nodes j) =
      ((Rrad nodes.length : ℝ) : ℂ) *
        (eps nodes.length i - eps nodes.length j) := by
    rw [seedPos_get nodes hnd i hi, seedPos_get nodes hnd j hj,
      seedVal_eq, seedVal_eq]
    ring
  have hz : eps nodes.length i - eps nodes.length j ≠ 0 :=
    sub_ne_zero.mpr (fun hcon =>
      hij (eps_inj nodes.length i j (by omega) hi hj hcon))
  have habs : 0 < Complex.abs (eps nodes.length i - eps nodes.length j) :=
    Complex.abs.pos hz
  have hρF : 0 < (rwSeq nodes.length ITERS).1 :=
    (rwSeq_pos nodes.length hn2 ITERS).1
  have hρ0F : Rrad nodes.length < (rwSeq nodes.length ITERS).1 := by
    have h := rwSeq_final nodes.length hn2
    rwa [show (rwSeq nodes.length 0).1 = Rrad nodes.length from rfl] at h
  refine ⟨layoutVal nodes [] (kfn nodes i), layoutVal nodes [] (kfn nodes j),
    hlook i hi, hlook j hj, ?_, ?_⟩
  · rw [hseed, hfin, map_mul, map_mul, Complex.abs_ofReal, Complex.abs_ofReal,
      abs_of_pos (Rrad_pos nodes.length), abs_of_pos hρF]
    exact mul_lt_mul_of_pos_right hρ0F habs
  · rw [← sub_ne_zero, hfin]
    exact mul_ne_zero (Complex.ofReal_ne_zero.mpr (ne_of_gt hρF)) hz

/-- Witness for C7 at a concrete two-node input. -/
theorem layout_repulsion_spreads_witness :
    ∃ pi pj : ℂ,
      List.lookup (kfn [⟨"a", "", 0, "s"⟩, ⟨"b", "", 0, "s"⟩] 0)
        (useForceLayout [⟨"a", "", 0, "s"⟩, ⟨"b", "", 0, "s"⟩] []) = some pi ∧
      List.lookup (kfn [⟨"a", "", 0, "s"⟩, ⟨"b", "", 0, "s"⟩] 1)
        (useForceLayout [⟨"a", "", 0, "s"⟩, ⟨"b", "", 0, "s"⟩] []) = some pj ∧
      Complex.abs
        (seedPos [⟨"a", "", 0, "s"⟩, ⟨"b", "", 0, "s"⟩]
          (kfn [⟨"a", "", 0, "s"⟩, ⟨"b", "", 0, "s"⟩] 0) -
         seedPos [⟨"a", "", 0, "s"⟩, ⟨"b", "", 0, "s"⟩]
          (kfn [⟨"a", "", 0, "s"⟩, ⟨"b", "", 0, "s"⟩] 1)) <
        Complex.abs (pi - pj) ∧
      pi ≠ pj :=
  layout_repulsion_spreads [⟨"a", "", 0, "s"⟩, ⟨"b", "", 0, "s"⟩]
    (by decide) (by decide) 0 1 (by decide) (by decide) (by decide)

end DbView
